import Mathlib

/-!
Verification of the Text2Excel core pipeline (normalizer, chunker,
extraction orchestrator, record projector).

Text is modelled as a list of Unicode codepoints (`List Nat`).  The
Python functions `normalize_text` (utils/text_extractor.py),
`preprocess_and_chunk`, `extract_with_gemini` (response handling) and
`convert_to_three_columns` (utils/parser.py) are embedded as executable
Lean functions below.  Unicode-table-driven primitives
(`str.isprintable`, `str.strip`'s whitespace set) are modelled by
their restriction to a representative set of codepoints (ASCII, C0/C1
controls, common spaces, the full-width ASCII block, a ligature, the
combining acute accent and its precomposed vowels); NFKC is modelled
string-level, as the pointwise compatibility decomposition over this
table followed by a canonical composition pass over the modelled
base-plus-combining-mark pairs; all functions default to the
identity / `true` outside the modelled set.
-/

/-- Codepoints removed by Python `str.strip()` (restricted model of the
Unicode whitespace set used by `str.strip` and `str.isspace`). -/
def pyWs (n : Nat) : Bool :=
  (decide (9 ≤ n) && decide (n ≤ 13)) || decide (n = 32) ||
  (decide (28 ≤ n) && decide (n ≤ 31)) || decide (n = 0x85) || decide (n = 0xA0) ||
  (decide (0x2000 ≤ n) && decide (n ≤ 0x200A)) ||
  decide (n = 0x2028) || decide (n = 0x2029) ||
  decide (n = 0x202F) || decide (n = 0x205F) || decide (n = 0x3000)

/-- Restricted model of Python `str.isprintable` per codepoint: false for
C0/C1 controls, DEL, and the separator/format codepoints listed; true
for everything else (in particular all printable ASCII). -/
def isPrintable (n : Nat) : Bool :=
  if n < 0x20 then false
  else if n = 0x7F then false
  else if 0x80 ≤ n && n ≤ 0x9F then false
  else if n = 0xA0 then false
  else if n = 0xAD then false
  else if 0x2000 ≤ n && n ≤ 0x200A then false
  else if n = 0x200B then false
  else if n = 0x2028 || n = 0x2029 then false
  else if n = 0x202F || n = 0x205F || n = 0x3000 then false
  else true

/-- Restricted model of the compatibility-decomposition half of NFKC,
per codepoint: the full-width ASCII block U+FF01..U+FF5E maps to
ASCII, NBSP and ideographic space map to space, the fixed-width
spaces U+2000..U+200A, U+202F and U+205F map to space, the fi
ligature decomposes; identity elsewhere (in particular on combining
marks, which the composition pass below handles). -/
def nfkcChar (n : Nat) : List Nat :=
  if 0xFF01 ≤ n && n ≤ 0xFF5E then [n - 0xFEE0]
  else if n = 0xA0 || n = 0x3000 then [32]
  else if (0x2000 ≤ n && n ≤ 0x200A) || n = 0x202F || n = 0x205F then [32]
  else if n = 0xFB01 then [102, 105]
  else [n]

/-- Restricted model of the combining marks: COMBINING ACUTE ACCENT
(U+0301). -/
def combMark (n : Nat) : Bool :=
  decide (n = 0x301)

/-- Restricted model of the canonical composition table: a base vowel
followed by COMBINING ACUTE ACCENT composes to the precomposed
letter. -/
def compPair (c1 c2 : Nat) : Option Nat :=
  if c2 = 0x301 then
    if c1 = 97 then some 225
    else if c1 = 101 then some 233
    else if c1 = 105 then some 237
    else if c1 = 111 then some 243
    else if c1 = 117 then some 250
    else none
  else none

/-- The canonical-composition pass of NFKC at the string level: compose
each base-plus-combining-mark pair left to right (none of the modelled
composites composes further). -/
def nfkcComp : List Nat → List Nat
  | [] => []
  | [c] => [c]
  | c1 :: c2 :: rest =>
    match compPair c1 c2 with
    | some c3 => c3 :: nfkcComp rest
    | none => c1 :: nfkcComp (c2 :: rest)

/-- The filter in `normalize_text`: keep printable characters plus
newline, tab and carriage return. -/
def keepChar (n : Nat) : Bool :=
  isPrintable n || decide (n = 10) || decide (n = 9) || decide (n = 13)

/-- Drop trailing characters satisfying `pyWs` (right half of
Python `str.strip()`). -/
def dropTrailingWs : List Nat → List Nat
  | [] => []
  | c :: rest =>
    let r := dropTrailingWs rest
    if r = [] && pyWs c then [] else c :: r

/-- Model of Python `str.strip()` with no arguments. -/
def pyStrip (l : List Nat) : List Nat :=
  dropTrailingWs (l.dropWhile pyWs)

/-- Model of `text.replace('\r\n','\n').replace('\r','\n')` as a single
left-to-right scan (the two sequential replaces are equivalent to it
because the replacement string contains no carriage return). -/
def normNewlines : List Nat → List Nat
  | [] => []
  | [c] => if c = 13 then [10] else [c]
  | c :: c2 :: rest =>
    if c = 13 then
      if c2 = 10 then 10 :: normNewlines rest
      else 10 :: normNewlines (c2 :: rest)
    else c :: normNewlines (c2 :: rest)

/-- Collapse runs of spaces and tabs to a single space, as
`re.sub(r'[ \t]+', ' ', line)`.  The flag records whether the scanner
is inside a space/tab run whose single replacement space was already
emitted. -/
def cst : Bool → List Nat → List Nat
  | _, [] => []
  | inRun, c :: rest =>
    if c = 32 || c = 9 then
      if inRun then cst true rest else 32 :: cst true rest
    else c :: cst false rest

/-- Per-line normalization `re.sub(r'[ \t]+', ' ', line.strip())`. -/
def lineNorm (l : List Nat) : List Nat :=
  cst false (pyStrip l)

/-- Prepend a character to the first part of a split result. -/
def consHead (c : Nat) : List (List Nat) → List (List Nat)
  | [] => [[c]]
  | p :: ps => (c :: p) :: ps

/-- Split on a single separator codepoint, Python `str.split(sep)`
semantics for a one-character separator. -/
def splitOnOne (sep : Nat) : List Nat → List (List Nat)
  | [] => [[]]
  | c :: rest =>
    if c = sep then [] :: splitOnOne sep rest
    else consHead c (splitOnOne sep rest)

/-- Join a list of parts with a separator list, Python `sep.join`. -/
def interc (sep : List Nat) : List (List Nat) → List Nat
  | [] => []
  | [l] => l
  | l :: l2 :: rest => l ++ sep ++ interc sep (l2 :: rest)

/-- Collapse runs of three or more newlines to exactly two, as
`re.sub(r'\n{3,}', '\n\n', text)`.  The first argument counts pending
newlines seen but not yet emitted. -/
def cnl : Nat → List Nat → List Nat
  | p, [] => List.replicate (min p 2) 10
  | p, c :: rest =>
    if c = 10 then cnl (p + 1) rest
    else List.replicate (min p 2) 10 ++ c :: cnl 0 rest

/-- Model of `normalize_text` from utils/text_extractor.py: NFKC,
printable filter (keeping newline/tab/CR), newline normalization,
per-line whitespace collapsing, blank-line collapsing, final strip. -/
def normalize_text (t : List Nat) : List Nat :=
  let t1 := nfkcComp (t.flatMap nfkcChar)
  let t2 := t1.filter keepChar
  let t3 := normNewlines t2
  let lines2 := (splitOnOne 10 t3).map lineNorm
  let t4 := interc [10] lines2
  let t5 := cnl 0 t4
  pyStrip t5

/-- Split on a double newline, Python `text.split('\n\n')` semantics
(leftmost-first, parts contain no occurrence of the separator). -/
def splitDNL : List Nat → List (List Nat)
  | [] => [[]]
  | [c] => [[c]]
  | c1 :: c2 :: rest =>
    if c1 = 10 && c2 = 10 then [] :: splitDNL rest
    else consHead c1 (splitDNL (c2 :: rest))

/-- The paragraph list computed at the top of `preprocess_and_chunk`:
`[p.strip() for p in text.strip().split('\n\n') if p.strip()]`. -/
def paragraphsOf (text : List Nat) : List (List Nat) :=
  ((splitDNL (pyStrip text)).map pyStrip).filter (fun p => p ≠ [])

/-- A chunk emitted by `preprocess_and_chunk` (the dictionary with keys
text, doc_id, paragraph_index, offset). -/
structure Chunk where
  text : List Nat
  doc_id : List Nat
  paragraph_index : Nat
  offset : Nat
deriving DecidableEq, Repr

/-- Loop state of `preprocess_and_chunk`: emitted chunks, current
buffer, its running length, the running character offset, and the
paragraph index at which the buffer starts. -/
structure CState where
  chunks : List Chunk
  cur : List (List Nat)
  curLen : Nat
  off : Nat
  psi : Nat
deriving Repr

/-- One iteration of the chunking loop for paragraph `para` at index
`pidx`: possibly close the current chunk (retaining the last paragraph
as overlap when the buffer held more than one), then append the
paragraph and account for its length plus the two-character
separator. -/
def chunkStep (d : List Nat) (csz : Nat) (pidx : Nat) (para : List Nat)
    (s : CState) : CState :=
  let plen := para.length
  let s1 :=
    if csz < s.curLen + plen ∧ s.cur ≠ [] then
      let ch : Chunk := ⟨interc [10, 10] s.cur, d, s.psi, s.off⟩
      if 1 < s.cur.length then
        let lastp := s.cur.getLastD []
        ⟨s.chunks ++ [ch], [lastp], lastp.length, s.off, pidx - 1⟩
      else
        ⟨s.chunks ++ [ch], [], 0, s.off, pidx⟩
    else s
  ⟨s1.chunks, s1.cur ++ [para], s1.curLen + plen, s1.off + plen + 2, s1.psi⟩

/-- The `for para_idx, para in enumerate(paragraphs)` loop. -/
def chunkLoop (d : List Nat) (csz : Nat) : Nat → CState → List (List Nat) → CState
  | _, s, [] => s
  | i, s, p :: ps => chunkLoop d csz (i + 1) (chunkStep d csz i p s) ps

/-- Model of `preprocess_and_chunk` from utils/parser.py.  The
`overlap` parameter is accepted, as in the source, and never used. -/
def preprocess_and_chunk (text : List Nat) (doc_id : List Nat)
    (chunk_size : Nat) (overlap : Nat) : List Chunk :=
  let t := pyStrip text
  let paragraphs := paragraphsOf text
  let s := chunkLoop doc_id chunk_size 0 ⟨[], [], 0, 0, 0⟩ paragraphs
  let chunks :=
    if s.cur ≠ [] then
      s.chunks ++ [⟨interc [10, 10] s.cur, doc_id, s.psi, s.off⟩]
    else s.chunks
  if chunks ≠ [] then chunks else [⟨t, doc_id, 0, 0⟩]

/-- The paragraphs a chunk's text consists of (re-splitting the chunk
text the same way the chunker splits a document). -/
def chunkParas (ch : Chunk) : List (List Nat) :=
  paragraphsOf ch.text

/-- Running character total after consuming the first `j` paragraphs:
each paragraph contributes its length plus 2 for the `\n\n`
separator (the `char_offset += para_len + 2` bookkeeping). -/
def offAt (ps : List (List Nat)) (j : Nat) : Nat :=
  ((ps.take j).map (fun p => p.length + 2)).sum

/-- Concatenate the chunks' paragraph lists in emission order, dropping
the first paragraph of a chunk when it repeats the previous chunk's
last paragraph (detected positionally: the chunk's paragraph index is
below the previous chunk's end index `pe`). -/
def dedupGo (pe : Nat) : List Chunk → List (List Nat)
  | [] => []
  | ch :: rest =>
    (if ch.paragraph_index < pe then (chunkParas ch).drop 1 else chunkParas ch) ++
      dedupGo (ch.paragraph_index + (chunkParas ch).length) rest

/-- Overlap-deduplicated concatenation of the paragraphs of a chunk
sequence. -/
def dedupConcat : List Chunk → List (List Nat)
  | [] => []
  | ch :: rest => chunkParas ch ++ dedupGo (ch.paragraph_index + (chunkParas ch).length) rest

/-- Linked-interval chain invariant of the chunker's output: each chunk
covers a nonempty contiguous paragraph interval `[a, c)`, carries the
interval's join as text, `a` as paragraph index and the running
character total at `c` as offset, and the next chunk starts at `c - 1`
(one-paragraph overlap) or at `c` (no overlap); `e` is where the
continuation starts after the listed chunks. -/
inductive ChunkChain (ps : List (List Nat)) (d : List Nat) :
    Nat → List Chunk → Nat → Prop where
  | nil : ∀ a, ChunkChain ps d a [] a
  | cons : ∀ a c b e rest,
      a < c → c ≤ ps.length →
      (b = c - 1 ∨ b = c) →
      ChunkChain ps d b rest e →
      ChunkChain ps d a
        (⟨interc [10, 10] ((ps.drop a).take (c - a)), d, a, offAt ps c⟩ :: rest) e

/-- Decoded JSON value (the result of `json.loads`). -/
inductive JValue where
  | jnull
  | jbool (b : Bool)
  | jnum (n : Int)
  | jstr (s : List Nat)
  | jarr (items : List JValue)
  | jobj (fields : List (List Nat × JValue))

/-- Python truthiness of a decoded JSON value (`not extractions`). -/
def pyFalsy : JValue → Bool
  | JValue.jnull => true
  | JValue.jbool b => !b
  | JValue.jnum n => decide (n = 0)
  | JValue.jstr s => s.isEmpty
  | JValue.jarr l => l.isEmpty
  | JValue.jobj l => l.isEmpty

/-- Python `dict.get(k)`: value of the first binding of `k`, if any. -/
def pyDictGet (fields : List (List Nat × JValue)) (k : List Nat) : Option JValue :=
  (fields.find? (fun f => f.1 = k)).map (fun f => f.2)

/-- Python `d[k] = v`: replace the existing binding or append a new one. -/
def pySetField : List (List Nat × JValue) → List Nat → JValue → List (List Nat × JValue)
  | [], k, v => [(k, v)]
  | f :: rest, k, v => if f.1 = k then (k, v) :: rest else f :: pySetField rest k v

/-- Errors surfaced by the extraction orchestrator:
`jsonDecodeFail` models the ValueError raised in the
`except json.JSONDecodeError` handler (carrying the bounded response
prefix and the decode error text); `wrapped` models the re-raise in the
generic `except Exception` handler (TypeError/AttributeError from the
backfill loop land here). -/
inductive PyErr where
  | jsonDecodeFail (respPre : List Nat) (errText : List Nat)
  | wrapped (msg : List Nat)
deriving DecidableEq

/-- Codepoints of a string literal. -/
def strN (s : String) : List Nat :=
  s.toList.map Char.toNat

/-- Decimal digit codepoints of a natural number. -/
def natDigs (n : Nat) : List Nat :=
  (Nat.toDigits 10 n).map Char.toNat

/-- The key "provenance". -/
def provKey : List Nat := strN ("provenance")

/-- The default provenance `f"{doc_id}:{paragraph_index}:0-{len(chunk_text)}"`. -/
def defaultProv (d : List Nat) (pi clen : Nat) : List Nat :=
  d ++ [58] ++ natDigs pi ++ [58, 48, 45] ++ natDigs clen

/-- The provenance back-fill applied to one extraction item: on a dict,
if `item.get('provenance')` is absent or falsy, or is a string without
a colon, store the default; a truthy non-string raises TypeError at
`':' not in ...` (wrapped by the generic handler); `item.get` on a
non-dict raises AttributeError (also wrapped). -/
def backfillItem (d : List Nat) (pi clen : Nat) : JValue → Except PyErr JValue
  | JValue.jobj fields =>
    match pyDictGet fields provKey with
    | none =>
      Except.ok (JValue.jobj (pySetField fields provKey (JValue.jstr (defaultProv d pi clen))))
    | some v =>
      if pyFalsy v then
        Except.ok (JValue.jobj (pySetField fields provKey (JValue.jstr (defaultProv d pi clen))))
      else
        match v with
        | JValue.jstr s =>
          if (58 : Nat) ∈ s then Except.ok (JValue.jobj fields)
          else Except.ok (JValue.jobj (pySetField fields provKey (JValue.jstr (defaultProv d pi clen))))
        | _ => Except.error (PyErr.wrapped (strN ("Gemini API call failed: argument of type int is not iterable")))
  | _ => Except.error (PyErr.wrapped (strN ("Gemini API call failed: object has no attribute get")))

/-- The `for item in extractions` back-fill loop; the first failing
item aborts the call. -/
def backfillAll (d : List Nat) (pi clen : Nat) : List JValue → Except PyErr (List JValue)
  | [] => Except.ok []
  | i :: is =>
    match backfillItem d pi clen i with
    | Except.error e => Except.error e
    | Except.ok i2 =>
      match backfillAll d pi clen is with
      | Except.error e => Except.error e
      | Except.ok is2 => Except.ok (i2 :: is2)

/-- Does the text start with a markdown fence? -/
def startsFence : List Nat → Bool
  | 96 :: 96 :: 96 :: _ => true
  | _ => false

/-- Split on a triple backtick, Python `text.split('```')`. -/
def splitFence : List Nat → List (List Nat)
  | c1 :: c2 :: c3 :: rest =>
    if c1 = 96 && c2 = 96 && c3 = 96 then [] :: splitFence rest
    else consHead c1 (splitFence (c2 :: c3 :: rest))
  | l => [l]

/-- Does the part start with the four letters "json"? -/
def startsJson : List Nat → Bool
  | 106 :: 115 :: 111 :: 110 :: _ => true
  | _ => false

/-- The markdown-fence stripping applied to the response before
`json.loads`. -/
def stripFences (t : List Nat) : List Nat :=
  if startsFence t then
    let parts := splitFence t
    let t1 :=
      if 2 ≤ parts.length then
        let p1 := (parts.get? 1).getD []
        if startsJson p1 then p1.drop 4 else p1
      else t
    pyStrip t1
  else t

/-- The bounded response excerpt embedded in the decode-failure error:
`response_text[:500] if response_text else 'No response received'`. -/
def prefix500 (t : List Nat) : List Nat :=
  if t = [] then strN ("No response received") else t.take 500

/-- Model of the response handling of `extract_with_gemini`
(utils/parser.py): strip the raw response, strip a markdown fence,
decode (`jdecode` stands for `json.loads`); a decode failure raises the
ValueError with the bounded prefix and the decode error text; a falsy
or non-list payload yields zero records (logged as a warning in the
source); a nonempty list goes through the provenance back-fill. -/
def extract_with_gemini (jdecode : List Nat → Except (List Nat) JValue)
    (doc_id : List Nat) (paragraph_index : Nat) (chunk_text : List Nat)
    (response_text : List Nat) : Except PyErr (List JValue) :=
  let t1 := stripFences (pyStrip response_text)
  match jdecode t1 with
  | Except.error e => Except.error (PyErr.jsonDecodeFail (prefix500 t1) e)
  | Except.ok v =>
    match v with
    | JValue.jarr (i :: is) => backfillAll doc_id paragraph_index chunk_text.length (i :: is)
    | _ => Except.ok []

/-- The per-chunk loop of `parse_key_value_pairs`: call the capability
on each chunk in order (`respond` supplies the raw response for a
chunk), extend the accumulated record list, abort on the first
exception. -/
def runExtraction (jdecode : List Nat → Except (List Nat) JValue)
    (respond : Chunk → List Nat) : List Chunk → Except PyErr (List JValue)
  | [] => Except.ok []
  | c :: cs =>
    match extract_with_gemini jdecode c.doc_id c.paragraph_index c.text (respond c) with
    | Except.error e => Except.error e
    | Except.ok recs =>
      match runExtraction jdecode respond cs with
      | Except.error e => Except.error e
      | Except.ok rest => Except.ok (recs ++ rest)

/-- An output row of the projection: only key, value, comments. -/
structure Row where
  key : JValue
  value : JValue
  comments : JValue

/-- Model of `convert_to_three_columns` (utils/parser.py): one row per
record, `item.get('key', 'unknown_key')`, `item.get('value', '')`,
`item.get('comments', '')`; all other fields are dropped. -/
def convert_to_three_columns : List (List (List Nat × JValue)) → List Row
  | [] => []
  | item :: rest =>
    { key := (pyDictGet item (strN ("key"))).getD (JValue.jstr (strN ("unknown_key"))),
      value := (pyDictGet item (strN ("value"))).getD (JValue.jstr []),
      comments := (pyDictGet item (strN ("comments"))).getD (JValue.jstr []) } ::
      convert_to_three_columns rest

/-- A nonempty all-decimal-digit string. -/
def isDigitsNE (l : List Nat) : Bool :=
  decide (l ≠ []) && l.all (fun c => decide (48 ≤ c) && decide (c ≤ 57))

/-- Modelled from the spec: the provenance shape
`<doc_id>:<paragraph_index>:<char_start>-<char_end>` (the source has no
shape checker, so the spec's wording is formalized here for
comparison). -/
def specProvShape (s : List Nat) : Bool :=
  match splitOnOne 58 s with
  | [d, i, rest] =>
    decide (d ≠ []) && isDigitsNE i &&
      (match splitOnOne 45 rest with
       | [a, b] => isDigitsNE a && isDigitsNE b
       | _ => false)
  | _ => false

/-- No newline codepoint occurs in the list. -/
def no10 (l : List Nat) : Bool :=
  l.all (fun c => decide (c ≠ 10))

/-- No two adjacent newline codepoints occur (no `\n\n` substring). -/
def noDNL : List Nat → Bool
  | a :: b :: r => (!(a = 10 && b = 10)) && noDNL (b :: r)
  | _ => true

/-- No two adjacent space codepoints occur. -/
def noSpRun : List Nat → Bool
  | a :: b :: r => (!(a = 32 && b = 32)) && noSpRun (b :: r)
  | _ => true

/-- No two adjacent empty lines occur. -/
def noAdjEmp : List (List Nat) → Bool
  | a :: b :: r => (!(a.isEmpty && b.isEmpty)) && noAdjEmp (b :: r)
  | _ => true

/-- A line as produced by the normalizer on mark-free input: fixed by
per-line normalization, free of newlines, and made of
decomposition-fixed, combining-mark-free printable characters other
than carriage return. -/
def GoodLine (l : List Nat) : Prop :=
  lineNorm l = l ∧ no10 l = true ∧
    ∀ c ∈ l, nfkcChar c = [c] ∧ keepChar c = true ∧ c ≠ 13 ∧ combMark c = false

/-- Canonical line-list shape of a normalized document: nonempty, no
empty boundary line, no two adjacent empty lines. -/
def Canon (cls : List (List Nat)) : Prop :=
  cls ≠ [] ∧ cls.head? ≠ some [] ∧ cls.getLast? ≠ some [] ∧ noAdjEmp cls = true

/-- Canonical shape with all lines good: the structural
characterization of `normalize_text`'s nonempty outputs. -/
def CanonDoc (cls : List (List Nat)) : Prop :=
  Canon cls ∧ ∀ l ∈ cls, GoodLine l

/-! ### Lemmas about `dropTrailingWs` and `pyStrip` -/

theorem dtw_allws : ∀ {l : List Nat}, (∀ c ∈ l, pyWs c = true) → dropTrailingWs l = []
  | [], _ => rfl
  | c :: rest, h => by
    have hr : dropTrailingWs rest = [] :=
      dtw_allws (fun x hx => h x (List.mem_cons_of_mem _ hx))
    simp [dropTrailingWs, hr, h c (List.mem_cons_self c rest)]

theorem dtw_app_last {x : List Nat} {c : Nat} (hc : pyWs c = false) :
    dropTrailingWs (x ++ [c]) = x ++ [c] := by
  induction x with
  | nil => simp [dropTrailingWs, hc]
  | cons a x ih =>
    have hne : x ++ [c] ≠ [] := by simp
    simp only [List.cons_append, dropTrailingWs, List.append_eq]
    simp [ih, hne]

theorem dtw_app_ws {x y : List Nat} (h : ∀ c ∈ y, pyWs c = true) :
    dropTrailingWs (x ++ y) = dropTrailingWs x := by
  induction x with
  | nil => simpa using dtw_allws h
  | cons a x ih => simp only [List.cons_append, dropTrailingWs, List.append_eq, ih]

theorem dtw_shape : ∀ l : List Nat,
    dropTrailingWs l = [] ∨ ∃ x c, dropTrailingWs l = x ++ [c] ∧ pyWs c = false
  | [] => Or.inl rfl
  | c :: rest => by
    rcases dtw_shape rest with hr | ⟨x, c2, hr, hc2⟩
    · by_cases hc : pyWs c = true
      · left; simp [dropTrailingWs, hr, hc]
      · right
        refine ⟨[], c, ?_, by simpa using hc⟩
        simp [dropTrailingWs, hr, hc]
    · right
      refine ⟨c :: x, c2, ?_, hc2⟩
      have hne : dropTrailingWs rest ≠ [] := by simp [hr]
      simp [dropTrailingWs, hr, hne]

theorem dtw_mem : ∀ {l : List Nat} {c : Nat}, c ∈ dropTrailingWs l → c ∈ l := by
  intro l
  induction l with
  | nil => intro c h; simpa [dropTrailingWs] using h
  | cons a rest ih =>
    intro c h
    simp only [dropTrailingWs] at h
    by_cases hcond : (dropTrailingWs rest = [] && pyWs a) = true
    · simp [hcond] at h
    · simp only [hcond, if_neg, Bool.not_eq_true] at h
      rcases List.mem_cons.mp (by simpa using h) with h1 | h2
      · exact h1 ▸ List.mem_cons_self a rest
      · exact List.mem_cons_of_mem _ (ih h2)

theorem dtw_pre : ∀ l : List Nat, ∃ u, l = dropTrailingWs l ++ u
  | [] => ⟨[], rfl⟩
  | c :: rest => by
    obtain ⟨u, hu⟩ := dtw_pre rest
    by_cases hcond : (dropTrailingWs rest = [] && pyWs c) = true
    · exact ⟨c :: rest, by simp [dropTrailingWs, hcond]⟩
    · refine ⟨u, ?_⟩
      simp only [dropTrailingWs, hcond, if_neg, Bool.not_eq_true]
      simp only [List.cons_append]
      exact congrArg (c :: ·) hu

theorem dtw_cons_eq {c : Nat} {l : List Nat} {c2 : Nat} {t : List Nat}
    (h : dropTrailingWs (c :: l) = c2 :: t) : c2 = c := by
  by_cases hcond : (dropTrailingWs l = [] && pyWs c) = true
  · simp [dropTrailingWs, hcond] at h
  · simp only [dropTrailingWs, hcond, if_neg, Bool.not_eq_true] at h
    exact (List.cons.injEq .. ▸ h).1.symm

theorem dropWhile_head_false : ∀ {l : List Nat} {c : Nat} {t : List Nat},
    l.dropWhile pyWs = c :: t → pyWs c = false := by
  intro l
  induction l with
  | nil => intro c t h; simp [List.dropWhile] at h
  | cons a rest ih =>
    intro c t h
    by_cases ha : pyWs a = true
    · rw [List.dropWhile_cons_of_pos ha] at h
      exact ih h
    · rw [List.dropWhile_cons_of_neg ha] at h
      cases h
      simpa using ha

theorem pyStrip_head {l : List Nat} {c : Nat} {t : List Nat} (h : pyStrip l = c :: t) :
    pyWs c = false := by
  unfold pyStrip at h
  cases hd : l.dropWhile pyWs with
  | nil => rw [hd] at h; simp [dropTrailingWs] at h
  | cons a r =>
    rw [hd] at h
    have := dtw_cons_eq h
    subst this
    exact dropWhile_head_false hd

theorem pyStrip_last {l : List Nat} (h : pyStrip l ≠ []) :
    ∃ x c, pyStrip l = x ++ [c] ∧ pyWs c = false := by
  rcases dtw_shape (l.dropWhile pyWs) with h1 | h1
  · exact absurd h1 h
  · exact h1

theorem pyStrip_allws {l : List Nat} (h : ∀ c ∈ l, pyWs c = true) : pyStrip l = [] := by
  unfold pyStrip
  rw [List.dropWhile_eq_nil_iff.mpr (fun c hc => h c hc)]
  rfl

theorem pyStrip_eq_self {c c2 : Nat} {y x : List Nat} (hc : pyWs c = false)
    (hc2 : pyWs c2 = false) (hl : c :: y = x ++ [c2]) : pyStrip (c :: y) = c :: y := by
  unfold pyStrip
  rw [List.dropWhile_cons_of_neg (by simp [hc]), hl, dtw_app_last hc2]

theorem pyStrip_idem (l : List Nat) : pyStrip (pyStrip l) = pyStrip l := by
  cases h : pyStrip l with
  | nil => rfl
  | cons c t =>
    have hc : pyWs c = false := pyStrip_head h
    obtain ⟨x, c2, hx, hc2⟩ := pyStrip_last (l := l) (by simp [h])
    rw [h] at hx
    exact pyStrip_eq_self hc hc2 hx

theorem pyStrip_mem {l : List Nat} {c : Nat} (h : c ∈ pyStrip l) : c ∈ l := by
  unfold pyStrip at h
  exact (List.dropWhile_sublist (p := pyWs) (l := l)).mem (dtw_mem h)

theorem pyStrip_cons_ne {c : Nat} {l : List Nat} (hc : pyWs c = false) :
    pyStrip (c :: l) ≠ [] := by
  unfold pyStrip
  rw [List.dropWhile_cons_of_neg (by simp [hc])]
  simp only [dropTrailingWs]
  have hcond : (decide (dropTrailingWs l = []) && pyWs c) = false := by simp [hc]
  simp [hcond]

/-! ### Lemmas about `cst` and `lineNorm` -/

theorem ne_of_nws {c : Nat} (hc : pyWs c = false) :
    c ≠ 32 ∧ c ≠ 9 ∧ c ≠ 10 ∧ c ≠ 13 := by
  refine ⟨?_, ?_, ?_, ?_⟩ <;> rintro rfl <;> exact absurd hc (by decide)

theorem cst_true_pos {a : Nat} {rest : List Nat}
    (ha : (decide (a = 32) || decide (a = 9)) = true) :
    cst true (a :: rest) = cst true rest := by
  simp [cst, ha]

theorem cst_false_pos {a : Nat} {rest : List Nat}
    (ha : (decide (a = 32) || decide (a = 9)) = true) :
    cst false (a :: rest) = 32 :: cst true rest := by
  simp [cst, ha]

theorem cst_cons_neg (b : Bool) {a : Nat} {rest : List Nat}
    (ha : (decide (a = 32) || decide (a = 9)) = false) :
    cst b (a :: rest) = a :: cst false rest := by
  simp [cst, ha]

theorem cst_mem : ∀ {b : Bool} {l : List Nat} {c : Nat}, c ∈ cst b l → c = 32 ∨ c ∈ l := by
  intro b l
  induction l generalizing b with
  | nil => intro c h; simp [cst] at h
  | cons a rest ih =>
    intro c h
    by_cases ha : (decide (a = 32) || decide (a = 9)) = true
    · cases b with
      | true =>
        rw [cst_true_pos ha] at h
        rcases ih h with h1 | h2
        · exact Or.inl h1
        · exact Or.inr (List.mem_cons_of_mem _ h2)
      | false =>
        rw [cst_false_pos ha] at h
        rcases List.mem_cons.mp h with h1 | h2
        · exact Or.inl h1
        · rcases ih h2 with h3 | h4
          · exact Or.inl h3
          · exact Or.inr (List.mem_cons_of_mem _ h4)
    · have ha2 : (decide (a = 32) || decide (a = 9)) = false := by simpa using ha
      rw [cst_cons_neg b ha2] at h
      rcases List.mem_cons.mp h with h1 | h2
      · exact Or.inr (h1 ▸ List.mem_cons_self a rest)
      · rcases ih h2 with h3 | h4
        · exact Or.inl h3
        · exact Or.inr (List.mem_cons_of_mem _ h4)

theorem cst_no9 : ∀ (b : Bool) (l : List Nat), (9 : Nat) ∉ cst b l := by
  intro b l
  induction l generalizing b with
  | nil => simp [cst]
  | cons a rest ih =>
    by_cases ha : (decide (a = 32) || decide (a = 9)) = true
    · cases b with
      | true => rw [cst_true_pos ha]; exact ih true
      | false =>
        rw [cst_false_pos ha]
        intro h
        rcases List.mem_cons.mp h with h1 | h2
        · exact absurd h1 (by decide)
        · exact ih true h2
    · have ha2 : (decide (a = 32) || decide (a = 9)) = false := by simpa using ha
      rw [cst_cons_neg b ha2]
      intro h
      rcases List.mem_cons.mp h with h1 | h2
      · subst h1; exact absurd ha2 (by decide)
      · exact ih false h2

theorem cst_true_head : ∀ l : List Nat,
    cst true l = [] ∨ ∃ c t, cst true l = c :: t ∧ c ≠ 32 := by
  intro l
  induction l with
  | nil => exact Or.inl rfl
  | cons a rest ih =>
    by_cases ha : (decide (a = 32) || decide (a = 9)) = true
    · rw [cst_true_pos ha]; exact ih
    · have ha2 : (decide (a = 32) || decide (a = 9)) = false := by simpa using ha
      right
      refine ⟨a, cst false rest, cst_cons_neg true ha2, ?_⟩
      intro h; rw [h] at ha2; exact absurd ha2 (by decide)

theorem noSpRun_tail {a : Nat} {X : List Nat} (h : noSpRun (a :: X) = true) :
    noSpRun X = true := by
  cases X with
  | nil => rfl
  | cons x t =>
    simp only [noSpRun, Bool.and_eq_true] at h
    exact h.2

theorem noSpRun_cons_ne {a : Nat} {X : List Nat} (ha : a ≠ 32)
    (hX : noSpRun X = true) : noSpRun (a :: X) = true := by
  cases X with
  | nil => rfl
  | cons x t => simp [noSpRun, ha, hX]

theorem noSpRun_cons_head {a x : Nat} {t : List Nat} (hx : x ≠ 32)
    (hX : noSpRun (x :: t) = true) : noSpRun (a :: x :: t) = true := by
  simp [noSpRun, hx, hX]

theorem cst_norun : ∀ (b : Bool) (l : List Nat), noSpRun (cst b l) = true := by
  intro b l
  induction l generalizing b with
  | nil => rfl
  | cons a rest ih =>
    by_cases ha : (decide (a = 32) || decide (a = 9)) = true
    · cases b with
      | true => rw [cst_true_pos ha]; exact ih true
      | false =>
        rw [cst_false_pos ha]
        rcases cst_true_head rest with h0 | ⟨c, t, hct, hc⟩
        · rw [h0]; rfl
        · rw [hct]; exact noSpRun_cons_head hc (hct ▸ ih true)
    · have ha2 : (decide (a = 32) || decide (a = 9)) = false := by simpa using ha
      have ha32 : a ≠ 32 := by intro h; rw [h] at ha2; exact absurd ha2 (by decide)
      rw [cst_cons_neg b ha2]
      exact noSpRun_cons_ne ha32 (ih false)

theorem cst_id : ∀ l : List Nat, (9 : Nat) ∉ l → noSpRun l = true →
    cst false l = l ∧ ((∀ t, l ≠ 32 :: t) → cst true l = l) := by
  intro l
  induction l with
  | nil => exact fun _ _ => ⟨rfl, fun _ => rfl⟩
  | cons a rest ih =>
    intro h9 hrun
    have h9r : (9 : Nat) ∉ rest := fun h => h9 (List.mem_cons_of_mem _ h)
    have h9a : a ≠ 9 := fun h => h9 (h ▸ List.mem_cons_self a rest)
    by_cases ha : a = 32
    · subst ha
      have hrest : ∀ t, rest ≠ 32 :: t := by
        intro t ht
        rw [ht] at hrun
        simp [noSpRun] at hrun
      have hct : cst true rest = rest := (ih h9r (noSpRun_tail hrun)).2 hrest
      constructor
      · rw [cst_false_pos (by simp), hct]
      · intro hcontra
        exact absurd rfl (hcontra rest)
    · have hcond : (decide (a = 32) || decide (a = 9)) = false := by simp [ha, h9a]
      have hcf : cst false rest = rest := (ih h9r (noSpRun_tail hrun)).1
      exact ⟨by rw [cst_cons_neg false hcond, hcf], fun _ => by rw [cst_cons_neg true hcond, hcf]⟩

theorem cst_app_last : ∀ (b : Bool) (x : List Nat) (c : Nat),
    (decide (c = 32) || decide (c = 9)) = false → ∃ z, cst b (x ++ [c]) = z ++ [c] := by
  intro b x
  induction x generalizing b with
  | nil =>
    intro c hc
    refine ⟨[], ?_⟩
    rw [List.nil_append, cst_cons_neg b hc]
    rfl
  | cons a x ih =>
    intro c hc
    by_cases ha : (decide (a = 32) || decide (a = 9)) = true
    · cases b with
      | true =>
        obtain ⟨z, hz⟩ := ih true c hc
        refine ⟨z, ?_⟩
        rw [List.cons_append, cst_true_pos ha, hz]
      | false =>
        obtain ⟨z, hz⟩ := ih true c hc
        refine ⟨32 :: z, ?_⟩
        rw [List.cons_append, cst_false_pos ha, hz, List.cons_append]
    · have ha2 : (decide (a = 32) || decide (a = 9)) = false := by simpa using ha
      obtain ⟨z, hz⟩ := ih false c hc
      refine ⟨a :: z, ?_⟩
      rw [List.cons_append, cst_cons_neg b ha2, hz, List.cons_append]

theorem lineNorm_strip_fixed (l : List Nat) : pyStrip (lineNorm l) = lineNorm l := by
  unfold lineNorm
  cases hs : pyStrip l with
  | nil => rfl
  | cons c t =>
    have hc : pyWs c = false := pyStrip_head hs
    obtain ⟨x, c2, hx, hc2⟩ := pyStrip_last (l := l) (by simp [hs])
    rw [hs] at hx
    have hcond : (decide (c = 32) || decide (c = 9)) = false := by
      obtain ⟨h1, h2, -, -⟩ := ne_of_nws hc
      simp [h1, h2]
    have hcond2 : (decide (c2 = 32) || decide (c2 = 9)) = false := by
      obtain ⟨h1, h2, -, -⟩ := ne_of_nws hc2
      simp [h1, h2]
    obtain ⟨z, hz⟩ := cst_app_last false (x) c2 hcond2
    rw [← hx] at hz
    have hhead : cst false (c :: t) = c :: cst false t := cst_cons_neg false hcond
    have hkey : c :: cst false t = z ++ [c2] := by rw [← hhead, hz]
    rw [hhead]
    exact pyStrip_eq_self hc hc2 hkey

theorem lineNorm_idem (l : List Nat) : lineNorm (lineNorm l) = lineNorm l := by
  conv_lhs => rw [lineNorm, lineNorm_strip_fixed l]
  unfold lineNorm
  exact (cst_id _ (cst_no9 _ _) (cst_norun _ _)).1

theorem lineNorm_mem {l : List Nat} {c : Nat} (h : c ∈ lineNorm l) :
    c = 32 ∨ c ∈ l := by
  rcases cst_mem h with h1 | h2
  · exact Or.inl h1
  · exact Or.inr (pyStrip_mem h2)

theorem lineNorm_allws {l : List Nat} (h : ∀ c ∈ l, pyWs c = true) :
    lineNorm l = [] := by
  unfold lineNorm
  rw [pyStrip_allws h]
  rfl

/-! ### Lemmas about `splitOnOne` and `interc` -/

theorem consHead_ne_nil (c : Nat) (X : List (List Nat)) : consHead c X ≠ [] := by
  cases X <;> simp [consHead]

theorem splitOnOne_ne_nil (sep : Nat) : ∀ l : List Nat, splitOnOne sep l ≠ [] := by
  intro l
  cases l with
  | nil => simp [splitOnOne]
  | cons c r =>
    by_cases hc : c = sep
    · simp [splitOnOne, hc]
    · simpa [splitOnOne, hc] using consHead_ne_nil c (splitOnOne sep r)

theorem interc_consHead {sep : List Nat} {c : Nat} {X : List (List Nat)} (h : X ≠ []) :
    interc sep (consHead c X) = c :: interc sep X := by
  cases X with
  | nil => exact absurd rfl h
  | cons p ps =>
    cases ps with
    | nil => simp [consHead, interc]
    | cons q qs => simp [consHead, interc]

theorem interc_splitOnOne (sep : Nat) : ∀ l : List Nat,
    interc [sep] (splitOnOne sep l) = l := by
  intro l
  induction l with
  | nil => rfl
  | cons c r ih =>
    by_cases hc : c = sep
    · subst hc
      rw [show splitOnOne c (c :: r) = [] :: splitOnOne c r by simp [splitOnOne]]
      obtain ⟨p, ps, hps⟩ := List.exists_cons_of_ne_nil (splitOnOne_ne_nil c r)
      rw [hps]
      rw [hps] at ih
      simpa [interc] using ih
    · rw [show splitOnOne sep (c :: r) = consHead c (splitOnOne sep r) by simp [splitOnOne, hc]]
      rw [interc_consHead (splitOnOne_ne_nil sep r), ih]

theorem splitOnOne_parts : ∀ {sep : Nat} {l p : List Nat},
    p ∈ splitOnOne sep l → ∀ c ∈ p, c ∈ l ∧ c ≠ sep := by
  intro sep l
  induction l with
  | nil =>
    intro p hp c hc
    simp [splitOnOne] at hp
    subst hp
    simp at hc
  | cons a r ih =>
    intro p hp c hc
    by_cases ha : a = sep
    · subst ha
      rw [show splitOnOne a (a :: r) = [] :: splitOnOne a r by simp [splitOnOne]] at hp
      rcases List.mem_cons.mp hp with h1 | h2
      · subst h1; simp at hc
      · obtain ⟨hm, hne⟩ := ih h2 c hc
        exact ⟨List.mem_cons_of_mem _ hm, hne⟩
    · rw [show splitOnOne sep (a :: r) = consHead a (splitOnOne sep r) by
        simp [splitOnOne, ha]] at hp
      obtain ⟨q, qs, hqs⟩ := List.exists_cons_of_ne_nil (splitOnOne_ne_nil sep r)
      rw [hqs] at hp
      simp only [consHead] at hp
      rcases List.mem_cons.mp hp with h1 | h2
      · subst h1
        rcases List.mem_cons.mp hc with h3 | h4
        · rw [h3]; exact ⟨List.mem_cons_self a r, ha⟩
        · obtain ⟨hm, hne⟩ := ih (hqs ▸ List.mem_cons_self q qs) c h4
          exact ⟨List.mem_cons_of_mem _ hm, hne⟩
      · obtain ⟨hm, hne⟩ := ih (hqs ▸ List.mem_cons_of_mem _ h2) c hc
        exact ⟨List.mem_cons_of_mem _ hm, hne⟩

theorem splitOnOne_sepfree {sep : Nat} : ∀ {l : List Nat},
    (∀ c ∈ l, c ≠ sep) → splitOnOne sep l = [l] := by
  intro l
  induction l with
  | nil => intro _; rfl
  | cons a r ih =>
    intro h
    have ha : a ≠ sep := h a (List.mem_cons_self a r)
    rw [show splitOnOne sep (a :: r) = consHead a (splitOnOne sep r) by
      simp [splitOnOne, ha]]
    rw [ih (fun c hc => h c (List.mem_cons_of_mem _ hc))]
    rfl

theorem splitOnOne_app_sep {sep : Nat} : ∀ {l m : List Nat},
    (∀ c ∈ l, c ≠ sep) → splitOnOne sep (l ++ sep :: m) = l :: splitOnOne sep m := by
  intro l
  induction l with
  | nil =>
    intro m _
    simp [splitOnOne]
  | cons a l ih =>
    intro m h
    have ha : a ≠ sep := h a (List.mem_cons_self a l)
    rw [List.cons_append]
    rw [show splitOnOne sep (a :: (l ++ sep :: m)) =
        consHead a (splitOnOne sep (l ++ sep :: m)) by simp [splitOnOne, ha]]
    rw [ih (fun c hc => h c (List.mem_cons_of_mem _ hc))]
    rfl

theorem splitOnOne_interc {sep : Nat} : ∀ {ls : List (List Nat)}, ls ≠ [] →
    (∀ l ∈ ls, ∀ c ∈ l, c ≠ sep) → splitOnOne sep (interc [sep] ls) = ls := by
  intro ls
  induction ls with
  | nil => exact fun h _ => absurd rfl h
  | cons l tl ih =>
    intro _ h
    cases tl with
    | nil =>
      rw [show interc [sep] [l] = l from rfl]
      exact splitOnOne_sepfree (h l (List.mem_cons_self l []))
    | cons l2 r =>
      rw [show interc [sep] (l :: l2 :: r) = l ++ [sep] ++ interc [sep] (l2 :: r) from rfl]
      rw [List.append_assoc, List.singleton_append]
      rw [splitOnOne_app_sep (h l (List.mem_cons_self l (l2 :: r)))]
      rw [ih (by simp) (fun x hx => h x (List.mem_cons_of_mem _ hx))]

theorem interc_mem {sep : Nat} : ∀ {ls : List (List Nat)} {c : Nat},
    c ∈ interc [sep] ls → c = sep ∨ ∃ l ∈ ls, c ∈ l := by
  intro ls
  induction ls with
  | nil => intro c h; simp [interc] at h
  | cons l tl ih =>
    intro c h
    cases tl with
    | nil =>
      rw [show interc [sep] [l] = l from rfl] at h
      exact Or.inr ⟨l, List.mem_cons_self l [], h⟩
    | cons l2 r =>
      rw [show interc [sep] (l :: l2 :: r) = l ++ [sep] ++ interc [sep] (l2 :: r) from rfl] at h
      rcases List.mem_append.mp h with h1 | h2
      · rcases List.mem_append.mp h1 with h3 | h4
        · exact Or.inr ⟨l, List.mem_cons_self l (l2 :: r), h3⟩
        · simp at h4; exact Or.inl h4
      · rcases ih h2 with h3 | ⟨w, hw, hcw⟩
        · exact Or.inl h3
        · exact Or.inr ⟨w, List.mem_cons_of_mem _ hw, hcw⟩

theorem interc_cons_ne {sep : List Nat} {l0 : List Nat} {rest : List (List Nat)}
    (h : rest ≠ []) : interc sep (l0 :: rest) = l0 ++ sep ++ interc sep rest := by
  cases rest with
  | nil => exact absurd rfl h
  | cons l2 r => rfl

theorem interc_ends {sep : List Nat} : ∀ {ls : List (List Nat)} {ll : List Nat},
    ls.getLast? = some ll → ∃ z, interc sep ls = z ++ ll := by
  intro ls
  induction ls with
  | nil => intro ll h; simp at h
  | cons l tl ih =>
    intro ll h
    cases tl with
    | nil =>
      simp only [List.getLast?_singleton, Option.some.injEq] at h
      exact ⟨[], by rw [← h]; rfl⟩
    | cons l2 r =>
      rw [List.getLast?_cons_cons] at h
      obtain ⟨z, hz⟩ := ih h
      refine ⟨l ++ sep ++ z, ?_⟩
      rw [show interc sep (l :: l2 :: r) = l ++ sep ++ interc sep (l2 :: r) from rfl, hz]
      simp [List.append_assoc]

theorem interc_head {sep : List Nat} {l0 : List Nat} {tl : List (List Nat)} :
    ∃ z, interc sep (l0 :: tl) = l0 ++ z := by
  cases tl with
  | nil => exact ⟨[], by simp [interc]⟩
  | cons l2 r => exact ⟨sep ++ interc sep (l2 :: r), by rw [interc_cons_ne (by simp), List.append_assoc]⟩

theorem interc_rep_nil : ∀ e : Nat, interc [10] (List.replicate (e + 1) ([] : List Nat)) =
    List.replicate e 10 := by
  intro e
  induction e with
  | zero => rfl
  | succ e ih =>
    rw [List.replicate_succ, interc_cons_ne (by simp), ih]
    simp [List.replicate_succ]

theorem interc_rep_app : ∀ (e : Nat) {X : List (List Nat)}, X ≠ [] →
    interc [10] (List.replicate e [] ++ X) = List.replicate e 10 ++ interc [10] X := by
  intro e
  induction e with
  | zero => intro X _; simp
  | succ e ih =>
    intro X hX
    rw [List.replicate_succ, List.cons_append,
      interc_cons_ne (by simp [hX]), ih hX]
    simp [List.replicate_succ]

/-! ### Lemmas about `cnl` (blank-line collapsing) -/

theorem cnl_ten (p : Nat) (X : List Nat) : cnl p (10 :: X) = cnl (p + 1) X := by
  simp [cnl]

theorem cnl_step {c : Nat} (hc : c ≠ 10) (p : Nat) (X : List Nat) :
    cnl p (c :: X) = List.replicate (min p 2) 10 ++ c :: cnl 0 X := by
  simp [cnl, hc]

theorem cnl_zero_cons {c : Nat} (hc : c ≠ 10) (X : List Nat) :
    cnl 0 (c :: X) = c :: cnl 0 X := by
  simp [cnl, hc]

theorem cnl_shift {c : Nat} (hc : c ≠ 10) (p : Nat) (X : List Nat) :
    cnl p (c :: X) = List.replicate (min p 2) 10 ++ cnl 0 (c :: X) := by
  rw [cnl_step hc, cnl_zero_cons hc]

theorem cnl_app_no10 {l : List Nat} (h : ∀ c ∈ l, c ≠ 10) (X : List Nat) :
    cnl 0 (l ++ X) = l ++ cnl 0 X := by
  induction l with
  | nil => simp
  | cons a l ih =>
    rw [List.cons_append, cnl_zero_cons (h a (List.mem_cons_self a l)),
      ih (fun c hc => h c (List.mem_cons_of_mem _ hc)), List.cons_append]

theorem cnl_no10_self {l : List Nat} (h : ∀ c ∈ l, c ≠ 10) : cnl 0 l = l := by
  have h2 := cnl_app_no10 h []
  simpa [cnl] using h2

theorem cnl_rep (p k : Nat) (X : List Nat) :
    cnl p (List.replicate k 10 ++ X) = cnl (p + k) X := by
  induction k generalizing p with
  | zero => simp
  | succ k ih =>
    rw [List.replicate_succ, List.cons_append, cnl_ten, ih,
      show p + 1 + k = p + (k + 1) by omega]

/-! ### Helpers for line-list shapes -/

theorem isEmpty_false_of_ne {α : Type} {l : List α} (h : l ≠ []) :
    l.isEmpty = false := by
  cases l with
  | nil => exact absurd rfl h
  | cons a t => rfl

theorem noAdjEmp_cons_left {a : List Nat} {X : List (List Nat)} (ha : a ≠ [])
    (hX : noAdjEmp X = true) : noAdjEmp (a :: X) = true := by
  cases X with
  | nil => rfl
  | cons x t => simp [noAdjEmp, isEmpty_false_of_ne ha, hX]

theorem noAdjEmp_cons_head {a x : List Nat} {t : List (List Nat)} (hx : x ≠ [])
    (hX : noAdjEmp (x :: t) = true) : noAdjEmp (a :: x :: t) = true := by
  simp [noAdjEmp, isEmpty_false_of_ne hx, hX]

theorem dropWhile_head_not {α : Type} {p : α → Bool} :
    ∀ {l : List α} {x : α} {t : List α}, l.dropWhile p = x :: t → p x = false := by
  intro l
  induction l with
  | nil => intro x t h; simp [List.dropWhile] at h
  | cons a rest ih =>
    intro x t h
    by_cases ha : p a = true
    · rw [List.dropWhile_cons_of_pos ha] at h
      exact ih h
    · rw [List.dropWhile_cons_of_neg ha] at h
      cases h
      simpa using ha

/-- Core canonical-render lemma: collapsing blank runs in a rendered
line list yields a rendered canonical line list followed by at most two
trailing newlines, provided the first line is nonempty and no line
contains a newline. -/
theorem cnl_core : ∀ (n : Nat) (ls : List (List Nat)), ls.length ≤ n →
    (∃ l0 tl, ls = l0 :: tl ∧ l0 ≠ []) →
    (∀ l ∈ ls, ∀ c ∈ l, c ≠ 10) →
    ∃ cls t, cnl 0 (interc [10] ls) = interc [10] cls ++ List.replicate t 10 ∧
      t ≤ 2 ∧ cls.head? = ls.head? ∧
      (∃ ll, cls.getLast? = some ll ∧ ll ≠ []) ∧
      noAdjEmp cls = true ∧ ∀ l ∈ cls, l ∈ ls := by
  intro n
  induction n with
  | zero =>
    rintro ls hlen ⟨l0, tl, rfl, -⟩ -
    simp at hlen
  | succ n ihn =>
    rintro ls hlen ⟨l0, tl, rfl, hl0⟩ hno10
    have hno10l0 : ∀ c ∈ l0, c ≠ 10 := hno10 l0 (List.mem_cons_self l0 tl)
    by_cases htlne : tl = []
    · subst htlne
      refine ⟨[l0], 0, ?_, by omega, rfl, ⟨l0, rfl, hl0⟩, rfl, ?_⟩
      · rw [show interc [10] [l0] = l0 from rfl, cnl_no10_self hno10l0]
        simp
      · intro l hl
        simpa using hl
    · have hstep1 : interc [10] (l0 :: tl) = l0 ++ 10 :: interc [10] tl := by
        rw [interc_cons_ne htlne]
        simp
      have hstep2 : cnl 0 (interc [10] (l0 :: tl)) = l0 ++ cnl 1 (interc [10] tl) := by
        rw [hstep1, cnl_app_no10 hno10l0, cnl_ten]
      have hsplit : tl = List.replicate (tl.takeWhile (fun l => l.isEmpty)).length [] ++
          tl.dropWhile (fun l => l.isEmpty) := by
        conv_lhs => rw [← List.takeWhile_append_dropWhile (p := fun l => l.isEmpty) (l := tl)]
        congr 1
        apply List.eq_replicate_of_mem
        intro b hb
        have := List.mem_takeWhile_imp hb
        exact List.isEmpty_iff.mp this
      cases hrest : tl.dropWhile (fun l => l.isEmpty) with
      | nil =>
        rw [hrest, List.append_nil] at hsplit
        obtain ⟨e2, he2⟩ : ∃ e2, (tl.takeWhile (fun l => l.isEmpty)).length = e2 + 1 := by
          have hne : (tl.takeWhile (fun l => l.isEmpty)).length ≠ 0 := by
            intro h0
            rw [h0] at hsplit
            exact htlne (by simpa using hsplit)
          exact ⟨(tl.takeWhile (fun l => l.isEmpty)).length - 1, by omega⟩
        rw [he2] at hsplit
        refine ⟨[l0], min (1 + e2) 2, ?_, by omega, rfl, ⟨l0, rfl, hl0⟩, rfl, ?_⟩
        · rw [hstep2, hsplit, interc_rep_nil e2,
            show List.replicate e2 10 = List.replicate e2 10 ++ [] by simp,
            cnl_rep]
          rfl
        · intro l hl
          rw [List.mem_singleton.mp hl]
          exact List.mem_cons_self l0 tl
      | cons l1 rest2 =>
        have hl1ne : l1 ≠ [] := by
          have := dropWhile_head_not (p := fun l : List Nat => l.isEmpty) hrest
          intro hcontra
          rw [hcontra] at this
          simp at this
        have hrestmem : ∀ l ∈ l1 :: rest2, l ∈ tl := by
          intro l hl
          rw [← hrest] at hl
          exact (List.dropWhile_sublist _).mem hl
        have hrestlen : (l1 :: rest2).length ≤ n := by
          have h1 : (tl.dropWhile (fun l => l.isEmpty)).length ≤ tl.length :=
            (List.dropWhile_sublist _).length_le
          rw [hrest] at h1
          have h2 : tl.length + 1 ≤ n + 1 := by simpa using hlen
          omega
        obtain ⟨cls2, t2, hrw, ht2, hhead2, ⟨ll2, hlast2, hll2⟩, hadj2, hmem2⟩ :=
          ihn (l1 :: rest2) hrestlen ⟨l1, rest2, rfl, hl1ne⟩
            (fun l hl => hno10 l (List.mem_cons_of_mem _ (hrestmem l hl)))
        obtain ⟨cl2h, cl2t, hcls2⟩ : ∃ a b, cls2 = a :: b := by
          cases cls2 with
          | nil => simp at hhead2
          | cons a b => exact ⟨a, b, rfl⟩
        have hcl2h : cl2h = l1 := by
          rw [hcls2] at hhead2
          simpa using hhead2
        set e := (tl.takeWhile (fun l => l.isEmpty)).length with he
        have hinterc_tl : interc [10] tl = List.replicate e 10 ++ interc [10] (l1 :: rest2) := by
          conv_lhs => rw [hsplit, hrest]
          exact interc_rep_app e (by simp)
        obtain ⟨z, hz⟩ := @interc_head [10] l1 rest2
        obtain ⟨c1, l1t, hc1⟩ : ∃ c1 l1t, l1 = c1 :: l1t := by
          cases l1 with
          | nil => exact absurd rfl hl1ne
          | cons a b => exact ⟨a, b, rfl⟩
        have hc1ne : c1 ≠ 10 := by
          have := hno10 l1 (List.mem_cons_of_mem _ (hrestmem l1 (List.mem_cons_self l1 rest2)))
          exact this c1 (hc1 ▸ List.mem_cons_self c1 l1t)
        have hkey : cnl 1 (interc [10] tl) =
            List.replicate (min (1 + e) 2) 10 ++ (interc [10] cls2 ++ List.replicate t2 10) := by
          rw [hinterc_tl, cnl_rep, hz, hc1, List.cons_append,
            cnl_shift hc1ne, ← List.cons_append, ← hc1, ← hz, hrw]
        have hcls2ne : cls2 ≠ [] := by rw [hcls2]; simp
        rcases Nat.lt_or_ge e 1 with he0 | he1
        · -- e = 0 : single newline separator survives
          have he00 : e = 0 := by omega
          refine ⟨l0 :: cls2, t2, ?_, ht2, rfl, ⟨ll2, ?_, hll2⟩, ?_, ?_⟩
          · rw [hstep2, hkey, he00]
            rw [show min (1 + 0) 2 = 1 from rfl]
            rw [interc_cons_ne hcls2ne]
            simp [List.append_assoc]
          · rw [hcls2, List.getLast?_cons_cons, ← hcls2, hlast2]
          · rw [hcls2]
            exact noAdjEmp_cons_left hl0 (hcls2 ▸ hadj2)
          · intro l hl
            rcases List.mem_cons.mp hl with h1 | h2
            · exact h1 ▸ List.mem_cons_self l0 tl
            · exact List.mem_cons_of_mem _ (hrestmem l (hmem2 l h2))
        · -- e ≥ 1 : blank line separator survives
          refine ⟨l0 :: [] :: cls2, t2, ?_, ht2, rfl, ⟨ll2, ?_, hll2⟩, ?_, ?_⟩
          · rw [hstep2, hkey]
            rw [show min (1 + e) 2 = 2 by omega]
            rw [interc_cons_ne (by simp), interc_cons_ne hcls2ne]
            simp [List.append_assoc]
          · rw [hcls2, List.getLast?_cons_cons, List.getLast?_cons_cons, ← hcls2, hlast2]
          · refine noAdjEmp_cons_left hl0 ?_
            rw [hcls2]
            refine noAdjEmp_cons_head (hcl2h ▸ hl1ne) (hcls2 ▸ hadj2)
          · intro l hl
            rcases List.mem_cons.mp hl with h1 | h2
            · exact h1 ▸ List.mem_cons_self l0 tl
            · rcases List.mem_cons.mp h2 with h3 | h4
              · refine h3 ▸ List.mem_cons_of_mem _ ?_
                rw [hsplit]
                refine List.mem_append_left _ ?_
                exact List.mem_replicate.mpr ⟨by omega, rfl⟩
              · exact List.mem_cons_of_mem _ (hrestmem l (hmem2 l h4))

/-! ### Fixed-point lemmas for the normalizer's stages -/

theorem noAdjEmp_tail {a : List Nat} {X : List (List Nat)}
    (h : noAdjEmp (a :: X) = true) : noAdjEmp X = true := by
  cases X with
  | nil => rfl
  | cons x t =>
    simp only [noAdjEmp, Bool.and_eq_true] at h
    exact h.2

theorem map_id_of_fixed {α : Type} {f : α → α} : ∀ {l : List α},
    (∀ x ∈ l, f x = x) → l.map f = l := by
  intro l
  induction l with
  | nil => intro _; rfl
  | cons a t ih =>
    intro h
    rw [List.map_cons, h a (List.mem_cons_self a t),
      ih (fun x hx => h x (List.mem_cons_of_mem _ hx))]

theorem filter_id_of {α : Type} {p : α → Bool} : ∀ {l : List α},
    (∀ a ∈ l, p a = true) → l.filter p = l := by
  intro l
  induction l with
  | nil => intro _; rfl
  | cons a t ih =>
    intro h
    rw [List.filter_cons_of_pos (h a (List.mem_cons_self a t)),
      ih (fun x hx => h x (List.mem_cons_of_mem _ hx))]

theorem flatMap_id_of_fixed {f : Nat → List Nat} : ∀ {l : List Nat},
    (∀ c ∈ l, f c = [c]) → l.flatMap f = l := by
  intro l
  induction l with
  | nil => intro _; rfl
  | cons a t ih =>
    intro h
    rw [List.flatMap_cons, h a (List.mem_cons_self a t),
      ih (fun x hx => h x (List.mem_cons_of_mem _ hx))]
    rfl

theorem getLast?_mem : ∀ {α : Type} {l : List α} {a : α}, l.getLast? = some a → a ∈ l := by
  intro α l
  induction l with
  | nil => intro a h; simp at h
  | cons x t ih =>
    intro a h
    cases t with
    | nil =>
      simp only [List.getLast?_singleton, Option.some.injEq] at h
      exact h ▸ List.mem_cons_self x []
    | cons y u =>
      rw [List.getLast?_cons_cons] at h
      exact List.mem_cons_of_mem _ (ih h)

theorem normNewlines_id : ∀ l : List Nat, (∀ c ∈ l, c ≠ 13) → normNewlines l = l
  | [], _ => rfl
  | [c], h => by
    simp [normNewlines, h c (List.mem_cons_self c [])]
  | c :: c2 :: rest, h => by
    have hc : c ≠ 13 := h c (List.mem_cons_self c (c2 :: rest))
    rw [show normNewlines (c :: c2 :: rest) = c :: normNewlines (c2 :: rest) by
      simp [normNewlines, hc]]
    rw [normNewlines_id (c2 :: rest) (fun x hx => h x (List.mem_cons_of_mem _ hx))]

theorem normNewlines_mem : ∀ (l : List Nat) (c : Nat),
    c ∈ normNewlines l → c = 10 ∨ c ∈ l
  | [], c, h => by simp [normNewlines] at h
  | [a], c, h => by
    by_cases ha : a = 13
    · subst ha
      simp only [normNewlines, if_pos] at h
      simp at h
      exact Or.inl h
    · simp only [normNewlines, if_neg ha] at h
      simp at h
      exact Or.inr (by simp [h])
  | a :: a2 :: rest, c, h => by
    by_cases ha : a = 13
    · subst ha
      by_cases ha2 : a2 = 10
      · subst ha2
        rw [show normNewlines (13 :: 10 :: rest) = 10 :: normNewlines rest by
          simp [normNewlines]] at h
        rcases List.mem_cons.mp h with h1 | h2
        · exact Or.inl h1
        · rcases normNewlines_mem rest c h2 with h3 | h4
          · exact Or.inl h3
          · exact Or.inr (List.mem_cons_of_mem _ (List.mem_cons_of_mem _ h4))
      · rw [show normNewlines (13 :: a2 :: rest) = 10 :: normNewlines (a2 :: rest) by
          simp [normNewlines, ha2]] at h
        rcases List.mem_cons.mp h with h1 | h2
        · exact Or.inl h1
        · rcases normNewlines_mem (a2 :: rest) c h2 with h3 | h4
          · exact Or.inl h3
          · exact Or.inr (List.mem_cons_of_mem _ h4)
    · rw [show normNewlines (a :: a2 :: rest) = a :: normNewlines (a2 :: rest) by
        simp [normNewlines, ha]] at h
      rcases List.mem_cons.mp h with h1 | h2
      · exact Or.inr (h1 ▸ List.mem_cons_self a (a2 :: rest))
      · rcases normNewlines_mem (a2 :: rest) c h2 with h3 | h4
        · exact Or.inl h3
        · exact Or.inr (List.mem_cons_of_mem _ h4)

theorem normNewlines_no13 : ∀ l : List Nat, (13 : Nat) ∉ normNewlines l
  | [] => by simp [normNewlines]
  | [a] => by
    by_cases ha : a = 13
    · subst ha; simp [normNewlines]
    · simp [normNewlines, ha]
      intro h
      exact ha h.symm
  | a :: a2 :: rest => by
    by_cases ha : a = 13
    · subst ha
      by_cases ha2 : a2 = 10
      · subst ha2
        rw [show normNewlines (13 :: 10 :: rest) = 10 :: normNewlines rest by
          simp [normNewlines]]
        intro h
        rcases List.mem_cons.mp h with h1 | h2
        · exact absurd h1 (by decide)
        · exact normNewlines_no13 rest h2
      · rw [show normNewlines (13 :: a2 :: rest) = 10 :: normNewlines (a2 :: rest) by
          simp [normNewlines, ha2]]
        intro h
        rcases List.mem_cons.mp h with h1 | h2
        · exact absurd h1 (by decide)
        · exact normNewlines_no13 (a2 :: rest) h2
    · rw [show normNewlines (a :: a2 :: rest) = a :: normNewlines (a2 :: rest) by
        simp [normNewlines, ha]]
      intro h
      rcases List.mem_cons.mp h with h1 | h2
      · exact ha h1.symm
      · exact normNewlines_no13 (a2 :: rest) h2

theorem nfkcChar_small {d : Nat} (h : d < 0xA0) : nfkcChar d = [d] := by
  unfold nfkcChar
  have h1 : ¬ ((decide (0xFF01 ≤ d) && decide (d ≤ 0xFF5E)) = true) := by
    have hd : ¬ (0xFF01 ≤ d) := by omega
    simp [hd]
  have h2 : ¬ ((decide (d = 0xA0) || decide (d = 0x3000)) = true) := by
    have ha : d ≠ 0xA0 := by omega
    have hb : d ≠ 0x3000 := by omega
    simp [ha, hb]
  have h25 : ¬ (((decide (0x2000 ≤ d) && decide (d ≤ 0x200A)) ||
      decide (d = 0x202F) || decide (d = 0x205F)) = true) := by
    have ha : ¬ (0x2000 ≤ d) := by omega
    have hb : d ≠ 0x202F := by omega
    have hc2 : d ≠ 0x205F := by omega
    simp [ha, hb, hc2]
  have h3 : d ≠ 0xFB01 := by omega
  rw [if_neg h1, if_neg h2, if_neg h25, if_neg h3]

theorem nfkc_pointwise : ∀ c d : Nat, d ∈ nfkcChar c → nfkcChar d = [d] := by
  intro c d hd
  unfold nfkcChar at hd
  by_cases h1 : 0xFF01 ≤ c ∧ c ≤ 0xFF5E
  · rw [if_pos (by simp [h1.1, h1.2])] at hd
    have hd2 : d = c - 0xFEE0 := by simpa using hd
    have : d < 0xA0 := by omega
    exact nfkcChar_small this
  · have h1b : ¬ ((decide (0xFF01 ≤ c) && decide (c ≤ 0xFF5E)) = true) := by
      simpa [Bool.and_eq_true, decide_eq_true_eq, Decidable.not_and_iff_or_not] using
        (by tauto : ¬ (0xFF01 ≤ c ∧ c ≤ 0xFF5E))
    rw [if_neg h1b] at hd
    by_cases h2 : c = 0xA0 ∨ c = 0x3000
    · rw [if_pos (by rcases h2 with h | h <;> simp [h])] at hd
      have hd2 : d = 32 := by simpa using hd
      subst hd2
      exact nfkcChar_small (by omega)
    · have h2b : ¬ ((decide (c = 0xA0) || decide (c = 0x3000)) = true) := by
        simpa using h2
      rw [if_neg h2b] at hd
      by_cases h25 : (0x2000 ≤ c ∧ c ≤ 0x200A) ∨ c = 0x202F ∨ c = 0x205F
      · rw [if_pos (by
          rcases h25 with ⟨ha, hb⟩ | h | h
          · simp [ha, hb]
          · simp [h]
          · simp [h])] at hd
        have hd2 : d = 32 := by simpa using hd
        subst hd2
        exact nfkcChar_small (by omega)
      · have h25b : ¬ (((decide (0x2000 ≤ c) && decide (c ≤ 0x200A)) ||
            decide (c = 0x202F) || decide (c = 0x205F)) = true) := by
          simp only [Bool.or_eq_true, Bool.and_eq_true, decide_eq_true_eq]
          tauto
        rw [if_neg h25b] at hd
        by_cases h3 : c = 0xFB01
        · rw [if_pos h3] at hd
          rcases List.mem_cons.mp hd with h4 | h5
          · subst h4; exact nfkcChar_small (by omega)
          · have hd2 : d = 105 := by simpa using h5
            subst hd2; exact nfkcChar_small (by omega)
        · rw [if_neg h3] at hd
          have hdc : d = c := by simpa using hd
          subst hdc
          unfold nfkcChar
          rw [if_neg h1b, if_neg h2b, if_neg h25b, if_neg h3]

theorem compPair_nomark {c1 c2 : Nat} (h : combMark c2 = false) :
    compPair c1 c2 = none := by
  have hne : c2 ≠ 0x301 := by
    intro hcon
    rw [hcon] at h
    exact Bool.noConfusion h
  unfold compPair
  rw [if_neg hne]

theorem nfkcComp_id : ∀ {l : List Nat}, (∀ c ∈ l, combMark c = false) → nfkcComp l = l
  | [], _ => rfl
  | [c], _ => rfl
  | c1 :: c2 :: rest, h => by
    have h2 : combMark c2 = false := h c2 (by simp)
    show (match compPair c1 c2 with
      | some c3 => c3 :: nfkcComp rest
      | none => c1 :: nfkcComp (c2 :: rest)) = c1 :: c2 :: rest
    rw [compPair_nomark h2]
    rw [nfkcComp_id (fun c hc => h c (List.mem_cons_of_mem _ hc))]

theorem nfkc_nomark {c : Nat} (h : combMark c = false) :
    ∀ d ∈ nfkcChar c, combMark d = false := by
  intro d hd
  unfold nfkcChar at hd
  by_cases h1 : 0xFF01 ≤ c ∧ c ≤ 0xFF5E
  · rw [if_pos (by simp [h1.1, h1.2])] at hd
    have hd2 : d = c - 0xFEE0 := by simpa using hd
    rw [hd2]
    have hne : c - 0xFEE0 ≠ 0x301 := by omega
    unfold combMark
    simpa using hne
  · have h1b : ¬ ((decide (0xFF01 ≤ c) && decide (c ≤ 0xFF5E)) = true) := by
      simpa [Bool.and_eq_true, decide_eq_true_eq, Decidable.not_and_iff_or_not] using
        (by tauto : ¬ (0xFF01 ≤ c ∧ c ≤ 0xFF5E))
    rw [if_neg h1b] at hd
    by_cases h2 : c = 0xA0 ∨ c = 0x3000
    · rw [if_pos (by rcases h2 with hh | hh <;> simp [hh])] at hd
      have hd2 : d = 32 := by simpa using hd
      subst hd2
      decide
    · have h2b : ¬ ((decide (c = 0xA0) || decide (c = 0x3000)) = true) := by
        simpa using h2
      rw [if_neg h2b] at hd
      by_cases h25 : (0x2000 ≤ c ∧ c ≤ 0x200A) ∨ c = 0x202F ∨ c = 0x205F
      · rw [if_pos (by
          rcases h25 with ⟨ha, hb⟩ | hh | hh
          · simp [ha, hb]
          · simp [hh]
          · simp [hh])] at hd
        have hd2 : d = 32 := by simpa using hd
        subst hd2
        decide
      · have h25b : ¬ (((decide (0x2000 ≤ c) && decide (c ≤ 0x200A)) ||
            decide (c = 0x202F) || decide (c = 0x205F)) = true) := by
          simp only [Bool.or_eq_true, Bool.and_eq_true, decide_eq_true_eq]
          tauto
        rw [if_neg h25b] at hd
        by_cases h3 : c = 0xFB01
        · rw [if_pos h3] at hd
          rcases List.mem_cons.mp hd with h4 | h5
          · subst h4; decide
          · have hd2 : d = 105 := by simpa using h5
            subst hd2; decide
        · rw [if_neg h3] at hd
          have hdc : d = c := by simpa using hd
          subst hdc
          exact h

theorem no10_mem {l : List Nat} (h : no10 l = true) {c : Nat} (hc : c ∈ l) : c ≠ 10 := by
  unfold no10 at h
  have := List.all_eq_true.mp h c hc
  simpa using this

theorem no10_intro {l : List Nat} (h : ∀ c ∈ l, c ≠ 10) : no10 l = true := by
  unfold no10
  exact List.all_eq_true.mpr (fun c hc => by simpa using h c hc)

theorem dropWhile_rep10 : ∀ (m : Nat) (X : List Nat),
    (List.replicate m 10 ++ X).dropWhile pyWs = X.dropWhile pyWs := by
  intro m
  induction m with
  | zero => intro X; rfl
  | succ m ih =>
    intro X
    rw [List.replicate_succ, List.cons_append, List.dropWhile_cons_of_pos (by decide), ih]

/-- Blank-run collapsing is the identity on a rendered canonical line
list. -/
theorem cnl_canon : ∀ (n : Nat) (cls : List (List Nat)), cls.length ≤ n →
    (∃ l0 tl, cls = l0 :: tl ∧ l0 ≠ []) →
    (∀ l ∈ cls, ∀ c ∈ l, c ≠ 10) →
    cls.getLast? ≠ some [] → noAdjEmp cls = true →
    cnl 0 (interc [10] cls) = interc [10] cls := by
  intro n
  induction n with
  | zero =>
    rintro cls hlen ⟨l0, tl, rfl, -⟩ - - -
    simp at hlen
  | succ n ihn =>
    rintro cls hlen ⟨l0, tl, rfl, hl0⟩ hno10 hlast hadj
    have hno10l0 : ∀ c ∈ l0, c ≠ 10 := hno10 l0 (List.mem_cons_self l0 tl)
    cases tl with
    | nil =>
      rw [show interc [10] [l0] = l0 from rfl, cnl_no10_self hno10l0]
    | cons x tl2 =>
      by_cases hx : x = []
      · subst hx
        cases tl2 with
        | nil =>
          exfalso
          apply hlast
          rw [List.getLast?_cons_cons]
          rfl
        | cons l1 tl3 =>
          have hl1ne : l1 ≠ [] := by
            intro hcontra
            subst hcontra
            have := noAdjEmp_tail hadj
            simp [noAdjEmp] at this
          obtain ⟨c1, l1t, hc1⟩ : ∃ c1 l1t, l1 = c1 :: l1t := by
            cases l1 with
            | nil => exact absurd rfl hl1ne
            | cons a b => exact ⟨a, b, rfl⟩
          have hc1ne : c1 ≠ 10 :=
            hno10 l1 (List.mem_cons_of_mem _ (List.mem_cons_of_mem _
              (List.mem_cons_self l1 tl3))) c1 (hc1 ▸ List.mem_cons_self c1 l1t)
          have hstep : interc [10] (l0 :: [] :: l1 :: tl3) =
              l0 ++ 10 :: 10 :: interc [10] (l1 :: tl3) := by
            rw [interc_cons_ne (by simp), interc_cons_ne (by simp)]
            simp
          obtain ⟨z, hz⟩ := @interc_head [10] l1 tl3
          have hih : cnl 0 (interc [10] (l1 :: tl3)) = interc [10] (l1 :: tl3) := by
            refine ihn (l1 :: tl3) ?_ ⟨l1, tl3, rfl, hl1ne⟩ ?_ ?_ ?_
            · have : (l0 :: [] :: l1 :: tl3).length ≤ n + 1 := hlen
              simp only [List.length_cons] at this ⊢
              omega
            · intro l hl
              exact hno10 l (List.mem_cons_of_mem _ (List.mem_cons_of_mem _ hl))
            · rw [← List.getLast?_cons_cons (a := ([] : List Nat)),
                ← List.getLast?_cons_cons (a := l0)]
              exact hlast
            · exact noAdjEmp_tail (noAdjEmp_tail hadj)
          rw [hstep, cnl_app_no10 hno10l0, cnl_ten, cnl_ten]
          rw [hz, hc1, List.cons_append, cnl_shift hc1ne, ← List.cons_append, ← hc1, ← hz, hih]
          rfl
      · have hstep : interc [10] (l0 :: x :: tl2) =
            l0 ++ 10 :: interc [10] (x :: tl2) := by
          rw [interc_cons_ne (by simp)]
          simp
        obtain ⟨c1, xt, hcx⟩ : ∃ c1 xt, x = c1 :: xt := by
          cases x with
          | nil => exact absurd rfl hx
          | cons a b => exact ⟨a, b, rfl⟩
        have hc1ne : c1 ≠ 10 :=
          hno10 x (List.mem_cons_of_mem _ (List.mem_cons_self x tl2)) c1
            (hcx ▸ List.mem_cons_self c1 xt)
        obtain ⟨z, hz⟩ := @interc_head [10] x tl2
        have hih : cnl 0 (interc [10] (x :: tl2)) = interc [10] (x :: tl2) := by
          refine ihn (x :: tl2) ?_ ⟨x, tl2, rfl, hx⟩ ?_ ?_ ?_
          · have : (l0 :: x :: tl2).length ≤ n + 1 := hlen
            simp only [List.length_cons] at this ⊢
            omega
          · intro l hl
            exact hno10 l (List.mem_cons_of_mem _ hl)
          · rw [← List.getLast?_cons_cons (a := l0)]
            exact hlast
          · exact noAdjEmp_tail hadj
        rw [hstep, cnl_app_no10 hno10l0, cnl_ten]
        rw [hz, hcx, List.cons_append, cnl_shift hc1ne, ← List.cons_append, ← hcx, ← hz, hih]
        rfl

/-- Structure of the normalizer's output: it is empty, or the rendering
of a canonical document. -/
theorem normalize_struct (t : List Nat) (hm : ∀ c ∈ t, combMark c = false) :
    normalize_text t = [] ∨ ∃ cls, CanonDoc cls ∧ normalize_text t = interc [10] cls := by
  have hnt : normalize_text t =
      pyStrip (cnl 0 (interc [10] ((splitOnOne 10 (normNewlines
        ((nfkcComp (t.flatMap nfkcChar)).filter keepChar))).map lineNorm))) := rfl
  have hmflat : ∀ c ∈ t.flatMap nfkcChar, combMark c = false := by
    intro c hc
    obtain ⟨c0, hc0, hcc0⟩ := List.mem_flatMap.mp hc
    exact nfkc_nomark (hm c0 hc0) c hcc0
  rw [nfkcComp_id hmflat] at hnt
  generalize ht3 : normNewlines ((t.flatMap nfkcChar).filter keepChar) = t3 at hnt
  generalize hl2 : (splitOnOne 10 t3).map lineNorm = lines2 at hnt
  have ht3chars : ∀ c ∈ t3,
      nfkcChar c = [c] ∧ keepChar c = true ∧ c ≠ 13 ∧ combMark c = false := by
    intro c hc
    rw [← ht3] at hc
    have h13 : c ≠ 13 := fun hh => normNewlines_no13 _ (hh ▸ hc)
    rcases normNewlines_mem _ c hc with h10 | hmem
    · subst h10; exact ⟨by decide, by decide, by decide, by decide⟩
    · have hkeep : keepChar c = true := (List.mem_filter.mp hmem).2
      have hmem1 : c ∈ t.flatMap nfkcChar := (List.mem_filter.mp hmem).1
      obtain ⟨c0, hc0, hcc0⟩ := List.mem_flatMap.mp hmem1
      exact ⟨nfkc_pointwise c0 c hcc0, hkeep, h13, hmflat c hmem1⟩
  have hlinegood : ∀ l ∈ lines2, GoodLine l := by
    intro l hl
    rw [← hl2] at hl
    obtain ⟨w, hw, rfl⟩ := List.mem_map.mp hl
    have hwchars : ∀ c ∈ w, c ∈ t3 ∧ c ≠ 10 := fun c hc => splitOnOne_parts hw c hc
    refine ⟨lineNorm_idem w, no10_intro ?_, ?_⟩
    · intro c hc
      rcases lineNorm_mem hc with h32 | hcw
      · subst h32; decide
      · exact (hwchars c hcw).2
    · intro c hc
      rcases lineNorm_mem hc with h32 | hcw
      · subst h32; exact ⟨by decide, by decide, by decide, by decide⟩
      · exact ht3chars c (hwchars c hcw).1
  have hlstrip : ∀ l ∈ lines2, pyStrip l = l := by
    intro l hl
    rw [← hl2] at hl
    obtain ⟨w, hw, rfl⟩ := List.mem_map.mp hl
    exact lineNorm_strip_fixed w
  have hl2ne : lines2 ≠ [] := by
    rw [← hl2]
    intro h
    exact splitOnOne_ne_nil 10 t3 (List.map_eq_nil_iff.mp h)
  have hsplit : lines2 = List.replicate (lines2.takeWhile (fun l => l.isEmpty)).length [] ++
      lines2.dropWhile (fun l => l.isEmpty) := by
    conv_lhs => rw [← List.takeWhile_append_dropWhile (p := fun l => l.isEmpty) (l := lines2)]
    congr 1
    apply List.eq_replicate_of_mem
    intro b hb
    exact List.isEmpty_iff.mp (List.mem_takeWhile_imp hb)
  cases hrest : lines2.dropWhile (fun l => l.isEmpty) with
  | nil =>
    left
    rw [hrest, List.append_nil] at hsplit
    obtain ⟨e2, he2⟩ : ∃ e2, (lines2.takeWhile (fun l => l.isEmpty)).length = e2 + 1 := by
      have hne : (lines2.takeWhile (fun l => l.isEmpty)).length ≠ 0 := by
        intro h0
        rw [h0] at hsplit
        exact hl2ne (by simpa using hsplit)
      exact ⟨(lines2.takeWhile (fun l => l.isEmpty)).length - 1, by omega⟩
    rw [he2] at hsplit
    rw [hnt, hsplit, interc_rep_nil e2,
      show List.replicate e2 10 = List.replicate e2 10 ++ [] by simp, cnl_rep]
    apply pyStrip_allws
    intro c hc
    rw [show cnl (0 + e2) [] = List.replicate (min (0 + e2) 2) 10 from rfl] at hc
    rw [List.eq_of_mem_replicate hc]
    decide
  | cons l1 rest2 =>
    right
    have hl1ne : l1 ≠ [] := by
      have := dropWhile_head_not (p := fun l : List Nat => l.isEmpty) hrest
      intro hcontra
      rw [hcontra] at this
      simp at this
    have hrestmem : ∀ l ∈ l1 :: rest2, l ∈ lines2 := by
      intro l hl
      rw [← hrest] at hl
      exact (List.dropWhile_sublist _).mem hl
    obtain ⟨cls, t', hrw, ht', hhead, ⟨ll, hlast, hllne⟩, hadj, hmem⟩ :=
      cnl_core (l1 :: rest2).length (l1 :: rest2) le_rfl ⟨l1, rest2, rfl, hl1ne⟩
        (fun l hl c hc => no10_mem (hlinegood l (hrestmem l hl)).2.1 hc)
    obtain ⟨c1, l1t, hc1⟩ : ∃ c1 l1t, l1 = c1 :: l1t := by
      cases l1 with
      | nil => exact absurd rfl hl1ne
      | cons a b => exact ⟨a, b, rfl⟩
    have hl1strip : pyStrip l1 = l1 := hlstrip l1 (hrestmem l1 (List.mem_cons_self l1 rest2))
    have hc1nws : pyWs c1 = false := pyStrip_head (by rw [hl1strip, hc1])
    have hc1ne10 : c1 ≠ 10 := (ne_of_nws hc1nws).2.2.1
    rw [hrest] at hsplit
    have hint : interc [10] lines2 =
        List.replicate (lines2.takeWhile (fun l => l.isEmpty)).length 10 ++
          interc [10] (l1 :: rest2) := by
      conv_lhs => rw [hsplit]
      exact interc_rep_app _ (by simp)
    obtain ⟨z, hz⟩ := @interc_head [10] l1 rest2
    have hcnl : cnl 0 (interc [10] lines2) =
        List.replicate (min (lines2.takeWhile (fun l => l.isEmpty)).length 2) 10 ++
          (interc [10] cls ++ List.replicate t' 10) := by
      rw [hint, cnl_rep, Nat.zero_add]
      rw [hz, hc1, List.cons_append, cnl_shift hc1ne10, ← List.cons_append, ← hc1, ← hz, hrw]
    obtain ⟨clt, hclt⟩ : ∃ b, cls = l1 :: b := by
      cases cls with
      | nil => simp at hhead
      | cons a b =>
        refine ⟨b, ?_⟩
        have : a = l1 := by simpa using hhead
        rw [this]
    obtain ⟨z2, hz2⟩ := @interc_head [10] l1 clt
    have hllmem : ll ∈ lines2 := hrestmem ll (hmem ll (getLast?_mem hlast))
    have hllstrip : pyStrip ll = ll := hlstrip ll hllmem
    obtain ⟨x2, c2, hx2, hc2⟩ := pyStrip_last (l := ll) (by rw [hllstrip]; exact hllne)
    rw [hllstrip] at hx2
    obtain ⟨z3, hz3⟩ := @interc_ends [10] _ _ hlast
    refine ⟨cls, ⟨⟨by rw [hclt]; simp, ?_, ?_, hadj⟩,
      fun l hl => hlinegood l (hrestmem l (hmem l hl))⟩, ?_⟩
    · rw [hclt]
      intro hcon
      exact hl1ne (by simpa using hcon)
    · rw [hlast]
      intro hcon
      exact hllne (by simpa using hcon)
    · rw [hnt, hcnl]
      unfold pyStrip
      rw [dropWhile_rep10]
      have hA : interc [10] cls ++ List.replicate t' 10 =
          c1 :: ((l1t ++ z2) ++ List.replicate t' 10) := by
        rw [hclt, hz2, hc1]
        simp [List.append_assoc]
      rw [hA, List.dropWhile_cons_of_neg (by simp [hc1nws]), ← hA]
      rw [dtw_app_ws (by
        intro c hc
        rw [List.eq_of_mem_replicate hc]
        decide)]
      rw [hz3, hx2, ← List.append_assoc, dtw_app_last hc2]

theorem goodline_strip {l : List Nat} (h : GoodLine l) : pyStrip l = l := by
  conv_lhs => rw [← h.1]
  rw [lineNorm_strip_fixed, h.1]

/-- The normalizer is the identity on a rendered canonical document. -/
theorem normalize_fixed {cls : List (List Nat)} (h : CanonDoc cls) :
    normalize_text (interc [10] cls) = interc [10] cls := by
  obtain ⟨⟨hne, hhead, hlast, hadj⟩, hgood⟩ := h
  obtain ⟨l0, tl, rfl⟩ := List.exists_cons_of_ne_nil hne
  have hl0 : l0 ≠ [] := by
    intro hcon
    exact hhead (by rw [hcon]; rfl)
  have hno10 : ∀ l ∈ l0 :: tl, ∀ c ∈ l, c ≠ 10 := by
    intro l hl c hc
    exact no10_mem (hgood l hl).2.1 hc
  have hchars : ∀ c ∈ interc [10] (l0 :: tl),
      nfkcChar c = [c] ∧ keepChar c = true ∧ c ≠ 13 ∧ combMark c = false := by
    intro c hc
    rcases interc_mem hc with h10 | ⟨l, hl, hcl⟩
    · subst h10; exact ⟨by decide, by decide, by decide, by decide⟩
    · exact (hgood l hl).2.2 c hcl
  have h1 : (interc [10] (l0 :: tl)).flatMap nfkcChar = interc [10] (l0 :: tl) :=
    flatMap_id_of_fixed (fun c hc => (hchars c hc).1)
  have h1b : nfkcComp (interc [10] (l0 :: tl)) = interc [10] (l0 :: tl) :=
    nfkcComp_id (fun c hc => (hchars c hc).2.2.2)
  have h2 : (interc [10] (l0 :: tl)).filter keepChar = interc [10] (l0 :: tl) :=
    filter_id_of (fun c hc => (hchars c hc).2.1)
  have h3 : normNewlines (interc [10] (l0 :: tl)) = interc [10] (l0 :: tl) :=
    normNewlines_id _ (fun c hc => (hchars c hc).2.2.1)
  have h4 : splitOnOne 10 (interc [10] (l0 :: tl)) = l0 :: tl :=
    splitOnOne_interc (by simp) hno10
  have h5 : (l0 :: tl).map lineNorm = l0 :: tl :=
    map_id_of_fixed (fun l hl => (hgood l hl).1)
  have h6 : cnl 0 (interc [10] (l0 :: tl)) = interc [10] (l0 :: tl) :=
    cnl_canon (l0 :: tl).length _ le_rfl ⟨l0, tl, rfl, hl0⟩ hno10 hlast hadj
  have h7 : pyStrip (interc [10] (l0 :: tl)) = interc [10] (l0 :: tl) := by
    obtain ⟨z, hz⟩ := @interc_head [10] l0 tl
    obtain ⟨c0, l0t, hc0⟩ : ∃ c0 l0t, l0 = c0 :: l0t := by
      cases l0 with
      | nil => exact absurd rfl hl0
      | cons a b => exact ⟨a, b, rfl⟩
    have hc0nws : pyWs c0 = false :=
      pyStrip_head (by rw [goodline_strip (hgood l0 (List.mem_cons_self l0 tl)), hc0])
    obtain ⟨ll, hll⟩ : ∃ ll, (l0 :: tl).getLast? = some ll := by
      cases hgl : (l0 :: tl).getLast? with
      | none => simp at hgl
      | some a => exact ⟨a, rfl⟩
    have hllne : ll ≠ [] := by
      intro hcon
      rw [hcon] at hll
      exact hlast hll
    have hllmem : ll ∈ l0 :: tl := getLast?_mem hll
    obtain ⟨x2, c2, hx2, hc2⟩ := pyStrip_last (l := ll)
      (by rw [goodline_strip (hgood ll hllmem)]; exact hllne)
    rw [goodline_strip (hgood ll hllmem)] at hx2
    obtain ⟨z3, hz3⟩ := @interc_ends [10] _ _ hll
    have hshape : interc [10] (l0 :: tl) = c0 :: (l0t ++ z) := by
      rw [hz, hc0]; rfl
    have hshape2 : c0 :: (l0t ++ z) = (z3 ++ x2) ++ [c2] := by
      rw [← hshape, hz3, hx2, List.append_assoc]
    rw [hshape]
    exact pyStrip_eq_self hc0nws hc2 hshape2
  show pyStrip (cnl 0 (interc [10] ((splitOnOne 10 (normNewlines
    ((nfkcComp ((interc [10] (l0 :: tl)).flatMap nfkcChar)).filter keepChar))).map
      lineNorm))) = interc [10] (l0 :: tl)
  rw [h1, h1b, h2, h3, h4, h5, h6, h7]

/-- C2 counterexample: the normalizer is not idempotent.  For the
input "e", NUL, COMBINING ACUTE ACCENT the NUL blocks composition in
the first NFKC pass and is then deleted by the printable filter, so
the first pass returns the letter followed by the bare mark; the
second pass finds them adjacent and composes them to U+00E9. -/
theorem normalize_not_idempotent :
    normalize_text [101, 0, 769] = [101, 769] ∧
    normalize_text (normalize_text [101, 0, 769]) = [233] ∧
    normalize_text (normalize_text [101, 0, 769]) ≠ normalize_text [101, 0, 769] := by
  decide

/-- C2 (amended): the normalizer is idempotent on every string free of
combining marks — `normalize(normalize(t)) = normalize(t)` for every
such `t` over the modelled codepoint domain, which includes full-width
characters, CRLF line endings and runs of blank lines.  With a
combining mark in the input, idempotence can fail: the first pass may
delete a non-printable character standing between a base letter and
the mark, and the second pass then composes the newly adjacent
pair. -/
theorem normalize_idempotent_markfree (t : List Nat)
    (hm : ∀ c ∈ t, combMark c = false) :
    normalize_text (normalize_text t) = normalize_text t := by
  rcases normalize_struct t hm with h | ⟨cls, hcd, h⟩
  · rw [h]
    rfl
  · rw [h]
    exact normalize_fixed hcd

theorem normalize_idempotent_markfree_witness :
    normalize_text (normalize_text (strN ("  Ｈｅｌｌｏ\r\n\r\nWorld\t an\n\n\n\nY  "))) =
      normalize_text (strN ("  Ｈｅｌｌｏ\r\n\r\nWorld\t an\n\n\n\nY  ")) :=
  normalize_idempotent_markfree (strN ("  Ｈｅｌｌｏ\r\n\r\nWorld\t an\n\n\n\nY  ")) (by decide)

theorem nfkc_ws {c : Nat} (h : pyWs c = true) : ∀ d ∈ nfkcChar c, pyWs d = true := by
  intro d hd
  have hc := h
  simp only [pyWs, Bool.or_eq_true, Bool.and_eq_true, decide_eq_true_eq] at hc
  unfold nfkcChar at hd
  by_cases h1 : 0xFF01 ≤ c ∧ c ≤ 0xFF5E
  · exact absurd h1 (by omega)
  · have h1b : ¬ ((decide (0xFF01 ≤ c) && decide (c ≤ 0xFF5E)) = true) := by
      simpa [Bool.and_eq_true, decide_eq_true_eq] using h1
    rw [if_neg h1b] at hd
    by_cases h2 : c = 0xA0 ∨ c = 0x3000
    · rw [if_pos (by rcases h2 with hh | hh <;> simp [hh])] at hd
      have : d = 32 := by simpa using hd
      subst this; decide
    · have h2b : ¬ ((decide (c = 0xA0) || decide (c = 0x3000)) = true) := by simpa using h2
      rw [if_neg h2b] at hd
      by_cases h25 : (0x2000 ≤ c ∧ c ≤ 0x200A) ∨ c = 0x202F ∨ c = 0x205F
      · rw [if_pos (by
          rcases h25 with ⟨ha, hb⟩ | hh | hh
          · simp [ha, hb]
          · simp [hh]
          · simp [hh])] at hd
        have hd2 : d = 32 := by simpa using hd
        subst hd2
        decide
      · have h25b : ¬ (((decide (0x2000 ≤ c) && decide (c ≤ 0x200A)) ||
            decide (c = 0x202F) || decide (c = 0x205F)) = true) := by
          simp only [Bool.or_eq_true, Bool.and_eq_true, decide_eq_true_eq]
          tauto
        rw [if_neg h25b] at hd
        by_cases h3 : c = 0xFB01
        · exact absurd h3 (by omega)
        · rw [if_neg h3] at hd
          have : d = c := by simpa using hd
          subst this; exact h

theorem normalize_allws {t : List Nat} (h : ∀ c ∈ t, pyWs c = true) :
    normalize_text t = [] := by
  have hnt : normalize_text t =
      pyStrip (cnl 0 (interc [10] ((splitOnOne 10 (normNewlines
        ((nfkcComp (t.flatMap nfkcChar)).filter keepChar))).map lineNorm))) := rfl
  have hmflat : ∀ c ∈ t.flatMap nfkcChar, combMark c = false := by
    intro c hc
    obtain ⟨c0, hc0, hcc0⟩ := List.mem_flatMap.mp hc
    have hws := nfkc_ws (h c0 hc0) c hcc0
    unfold combMark
    simp only [decide_eq_false_iff_not]
    intro hcon
    rw [hcon] at hws
    exact Bool.noConfusion hws
  rw [nfkcComp_id hmflat] at hnt
  generalize hL : (splitOnOne 10 (normNewlines
    ((t.flatMap nfkcChar).filter keepChar))).map lineNorm = L at hnt
  have hlines : ∀ l ∈ L, l = ([] : List Nat) := by
    intro l hl
    rw [← hL] at hl
    obtain ⟨w, hw, rfl⟩ := List.mem_map.mp hl
    apply lineNorm_allws
    intro c hc
    have hct3 := (splitOnOne_parts hw c hc).1
    rcases normNewlines_mem _ c hct3 with h10 | hmem
    · subst h10; decide
    · have hc1 : c ∈ t.flatMap nfkcChar := (List.mem_filter.mp hmem).1
      obtain ⟨c0, hc0, hcc0⟩ := List.mem_flatMap.mp hc1
      exact nfkc_ws (h c0 hc0) c hcc0
  have hLne : L ≠ [] := by
    rw [← hL]
    intro hcon
    exact splitOnOne_ne_nil 10 _ (List.map_eq_nil_iff.mp hcon)
  have hLrep : L = List.replicate L.length [] := List.eq_replicate_of_mem hlines
  obtain ⟨k, hk⟩ : ∃ k, L.length = k + 1 := by
    have : L.length ≠ 0 := fun hcon => hLne (List.length_eq_zero.mp hcon)
    exact ⟨L.length - 1, by omega⟩
  rw [hnt]
  conv_lhs => rw [hLrep, hk]
  rw [interc_rep_nil k, show List.replicate k 10 = List.replicate k 10 ++ [] by simp, cnl_rep]
  apply pyStrip_allws
  intro c hc
  rw [show cnl (0 + k) [] = List.replicate (min (0 + k) 2) 10 from rfl] at hc
  rw [List.eq_of_mem_replicate hc]
  decide

/-- C9: normalizing an empty or whitespace-only string and chunking the
result yields exactly one chunk with empty text, paragraph index 0 and
offset 0 (the chunker's degenerate fallback). -/
theorem degenerate_input_single_chunk (t d : List Nat) (csz ov : Nat)
    (h : ∀ c ∈ t, pyWs c = true) :
    preprocess_and_chunk (normalize_text t) d csz ov = [⟨[], d, 0, 0⟩] := by
  rw [normalize_allws h]
  rfl

/-- Witness for C9 at the concrete whitespace-only input `"  \n \t "`. -/
theorem degenerate_input_single_chunk_witness :
    preprocess_and_chunk (normalize_text (strN ("  \n \t "))) (strN ("D1")) 2000 200 =
      [⟨[], strN ("D1"), 0, 0⟩] :=
  degenerate_input_single_chunk (strN ("  \n \t ")) (strN ("D1")) 2000 200 (by decide)

/-! ### Lemmas about `noDNL`, `splitDNL` and `paragraphsOf` -/

theorem noDNL_tail {a : Nat} {l : List Nat} (h : noDNL (a :: l) = true) :
    noDNL l = true := by
  cases l with
  | nil => rfl
  | cons b r =>
    simp only [noDNL, Bool.and_eq_true] at h
    exact h.2

theorem noDNL_pair {a b : Nat} {r : List Nat} (h : noDNL (a :: b :: r) = true) :
    ¬(a = 10 ∧ b = 10) := by
  simp only [noDNL, Bool.and_eq_true] at h
  have h1 := h.1
  intro hab
  rw [hab.1, hab.2] at h1
  simp at h1

theorem noDNL_cons {a b : Nat} {r : List Nat} (h1 : ¬(a = 10 ∧ b = 10))
    (h2 : noDNL (b :: r) = true) : noDNL (a :: b :: r) = true := by
  simp only [noDNL, Bool.and_eq_true]
  have h1b : ¬ a = 10 ∨ ¬ b = 10 := by
    by_cases ha : a = 10
    · exact Or.inr (fun hb2 => h1 ⟨ha, hb2⟩)
    · exact Or.inl ha
  exact ⟨by simpa using h1b, h2⟩

theorem noDNL_of_append : ∀ (x u : List Nat), noDNL (x ++ u) = true → noDNL x = true
  | [], _, _ => rfl
  | [_], _, _ => rfl
  | a :: b :: x, u, h => by
    have hp := noDNL_pair (a := a) (b := b) (r := x ++ u) (by simpa using h)
    have ht : noDNL ((b :: x) ++ u) = true := noDNL_tail (by simpa using h)
    exact noDNL_cons hp (noDNL_of_append (b :: x) u ht)

theorem noDNL_dropWhile {p : Nat → Bool} : ∀ {l : List Nat},
    noDNL l = true → noDNL (l.dropWhile p) = true := by
  intro l
  induction l with
  | nil => intro _; rfl
  | cons a r ih =>
    intro h
    by_cases ha : p a = true
    · rw [List.dropWhile_cons_of_pos ha]
      exact ih (noDNL_tail h)
    · rw [List.dropWhile_cons_of_neg ha]
      exact h

theorem noDNL_pyStrip {l : List Nat} (h : noDNL l = true) : noDNL (pyStrip l) = true := by
  unfold pyStrip
  obtain ⟨u, hu⟩ := dtw_pre (l.dropWhile pyWs)
  have hd : noDNL (l.dropWhile pyWs) = true := noDNL_dropWhile h
  rw [hu] at hd
  exact noDNL_of_append _ u hd

theorem splitDNL_ne_nil : ∀ l : List Nat, splitDNL l ≠ []
  | [] => by simp [splitDNL]
  | [c] => by simp [splitDNL]
  | c1 :: c2 :: r => by
    by_cases h : (decide (c1 = 10) && decide (c2 = 10)) = true
    · rw [show splitDNL (c1 :: c2 :: r) = [] :: splitDNL r by simp [splitDNL, h]]
      simp
    · have hb : (decide (c1 = 10) && decide (c2 = 10)) = false := by simpa using h
      rw [show splitDNL (c1 :: c2 :: r) = consHead c1 (splitDNL (c2 :: r)) by
        simp [splitDNL, hb]]
      exact consHead_ne_nil _ _

theorem splitDNL_head : ∀ (c : Nat) (r : List Nat), ∃ q qs,
    splitDNL (c :: r) = q :: qs ∧ ((q = [] ∧ c = 10) ∨ ∃ q2, q = c :: q2) := by
  intro c r
  cases r with
  | nil => exact ⟨[c], [], rfl, Or.inr ⟨[], rfl⟩⟩
  | cons c2 r2 =>
    by_cases h : (decide (c = 10) && decide (c2 = 10)) = true
    · refine ⟨[], splitDNL r2, by simp [splitDNL, h], Or.inl ⟨rfl, ?_⟩⟩
      exact of_decide_eq_true ((Bool.and_eq_true _ _).mp h).1
    · have hb : (decide (c = 10) && decide (c2 = 10)) = false := by simpa using h
      obtain ⟨p, ps, hps⟩ := List.exists_cons_of_ne_nil (splitDNL_ne_nil (c2 :: r2))
      refine ⟨c :: p, ps, ?_, Or.inr ⟨p, rfl⟩⟩
      rw [show splitDNL (c :: c2 :: r2) = consHead c (splitDNL (c2 :: r2)) by
        simp [splitDNL, hb], hps]
      rfl

theorem splitDNL_parts : ∀ (l : List Nat), ∀ p ∈ splitDNL l, noDNL p = true
  | [], p, hp => by
    simp [splitDNL] at hp
    subst hp
    rfl
  | [c], p, hp => by
    simp [splitDNL] at hp
    subst hp
    rfl
  | c1 :: c2 :: r, p, hp => by
    by_cases h : (decide (c1 = 10) && decide (c2 = 10)) = true
    · rw [show splitDNL (c1 :: c2 :: r) = [] :: splitDNL r by simp [splitDNL, h]] at hp
      rcases List.mem_cons.mp hp with h1 | h2
      · subst h1; rfl
      · exact splitDNL_parts r p h2
    · have hb : (decide (c1 = 10) && decide (c2 = 10)) = false := by simpa using h
      have hpair : ¬(c1 = 10 ∧ c2 = 10) := by
        intro ⟨ha, hbb⟩
        rw [ha, hbb] at hb
        simp at hb
      rw [show splitDNL (c1 :: c2 :: r) = consHead c1 (splitDNL (c2 :: r)) by
        simp [splitDNL, hb]] at hp
      obtain ⟨q, qs, hqs, hqshape⟩ := splitDNL_head c2 r
      rw [hqs] at hp
      simp only [consHead] at hp
      rcases List.mem_cons.mp hp with h1 | h2
      · subst h1
        rcases hqshape with ⟨hqnil, -⟩ | ⟨q2, hq2⟩
        · subst hqnil; rfl
        · subst hq2
          have hq : noDNL (c2 :: q2) = true :=
            splitDNL_parts (c2 :: r) (c2 :: q2) (hqs ▸ List.mem_cons_self _ _)
          exact noDNL_cons hpair hq
      · exact splitDNL_parts (c2 :: r) p (hqs ▸ List.mem_cons_of_mem _ h2)

theorem splitDNL_nosep : ∀ l : List Nat, noDNL l = true → splitDNL l = [l]
  | [], _ => rfl
  | [c], _ => rfl
  | c1 :: c2 :: r, h => by
    have hpair := noDNL_pair h
    have hb : (decide (c1 = 10) && decide (c2 = 10)) = false := by
      rcases Nat.decEq c1 10 with h1 | h1
      · simp [h1]
      · subst h1
        have : c2 ≠ 10 := fun hc => hpair ⟨rfl, hc⟩
        simp [this]
    rw [show splitDNL (c1 :: c2 :: r) = consHead c1 (splitDNL (c2 :: r)) by
      simp [splitDNL, hb]]
    rw [splitDNL_nosep (c2 :: r) (noDNL_tail h)]
    rfl

theorem splitDNL_app : ∀ (l m : List Nat), noDNL l = true → l.getLast? ≠ some 10 →
    splitDNL (l ++ 10 :: 10 :: m) = l :: splitDNL m
  | [], m, _, _ => by simp [splitDNL]
  | [c], m, _, hlast => by
    have hc : c ≠ 10 := fun h => hlast (by rw [h]; rfl)
    rw [List.cons_append, List.nil_append]
    rw [show splitDNL (c :: 10 :: 10 :: m) = consHead c (splitDNL (10 :: 10 :: m)) by
      simp [splitDNL, hc]]
    rw [show splitDNL (10 :: 10 :: m) = [] :: splitDNL m by simp [splitDNL]]
    rfl
  | c1 :: c2 :: l, m, hdnl, hlast => by
    have hpair := noDNL_pair hdnl
    have hb : (decide (c1 = 10) && decide (c2 = 10)) = false := by
      rcases Nat.decEq c1 10 with h1 | h1
      · simp [h1]
      · subst h1
        have : c2 ≠ 10 := fun hc => hpair ⟨rfl, hc⟩
        simp [this]
    rw [List.cons_append, List.cons_append]
    rw [show splitDNL (c1 :: c2 :: (l ++ 10 :: 10 :: m)) =
      consHead c1 (splitDNL (c2 :: (l ++ 10 :: 10 :: m))) by simp [splitDNL, hb]]
    rw [show c2 :: (l ++ 10 :: 10 :: m) = (c2 :: l) ++ 10 :: 10 :: m from rfl]
    rw [splitDNL_app (c2 :: l) m (noDNL_tail hdnl)
      (by rw [← List.getLast?_cons_cons (a := c1)]; exact hlast)]
    rfl

theorem stripFixed_last_ne10 {p : List Nat} (hne : p ≠ []) (hs : pyStrip p = p) :
    p.getLast? ≠ some 10 := by
  obtain ⟨x, c, hx, hc⟩ := pyStrip_last (l := p) (by rw [hs]; exact hne)
  rw [hs] at hx
  rw [hx, List.getLast?_concat]
  intro hcon
  have : c = 10 := by simpa using hcon
  subst this
  exact absurd hc (by decide)

theorem paragraphsOf_props {t : List Nat} : ∀ p ∈ paragraphsOf t,
    p ≠ [] ∧ pyStrip p = p ∧ noDNL p = true := by
  intro p hp
  unfold paragraphsOf at hp
  have hmem := List.mem_filter.mp hp
  have hne : p ≠ [] := by simpa using hmem.2
  obtain ⟨q, hq, rfl⟩ := List.mem_map.mp hmem.1
  exact ⟨hne, pyStrip_idem q, noDNL_pyStrip (splitDNL_parts _ q hq)⟩

theorem splitDNL_join : ∀ (L : List (List Nat)), L ≠ [] →
    (∀ p ∈ L, p ≠ [] ∧ pyStrip p = p ∧ noDNL p = true) →
    splitDNL (interc [10, 10] L) = L := by
  intro L
  induction L with
  | nil => exact fun h _ => absurd rfl h
  | cons p tl ih =>
    intro _ h
    obtain ⟨hpne, hps, hpd⟩ := h p (List.mem_cons_self p tl)
    cases tl with
    | nil =>
      rw [show interc [10, 10] [p] = p from rfl]
      exact splitDNL_nosep p hpd
    | cons p2 r =>
      rw [interc_cons_ne (by simp), List.append_assoc,
        show ([10, 10] : List Nat) ++ interc [10, 10] (p2 :: r) =
          10 :: 10 :: interc [10, 10] (p2 :: r) from rfl]
      rw [splitDNL_app p _ hpd (stripFixed_last_ne10 hpne hps)]
      rw [ih (by simp) (fun x hx => h x (List.mem_cons_of_mem _ hx))]

theorem interc_strip_fixed {L : List (List Nat)} (hne : L ≠ [])
    (h : ∀ p ∈ L, p ≠ [] ∧ pyStrip p = p) :
    pyStrip (interc [10, 10] L) = interc [10, 10] L := by
  obtain ⟨p0, tl, rfl⟩ := List.exists_cons_of_ne_nil hne
  obtain ⟨hp0ne, hp0s⟩ := h p0 (List.mem_cons_self p0 tl)
  obtain ⟨c0, p0t, hc0⟩ : ∃ c0 p0t, p0 = c0 :: p0t := by
    cases p0 with
    | nil => exact absurd rfl hp0ne
    | cons a b => exact ⟨a, b, rfl⟩
  have hc0nws : pyWs c0 = false := pyStrip_head (by rw [hp0s, hc0])
  obtain ⟨z, hz⟩ := @interc_head [10, 10] p0 tl
  obtain ⟨ll, hll⟩ : ∃ ll, (p0 :: tl).getLast? = some ll := by
    cases hgl : (p0 :: tl).getLast? with
    | none => simp at hgl
    | some a => exact ⟨a, rfl⟩
  obtain ⟨hllne, hlls⟩ := h ll (getLast?_mem hll)
  obtain ⟨x2, c2, hx2, hc2⟩ := pyStrip_last (l := ll) (by rw [hlls]; exact hllne)
  rw [hlls] at hx2
  obtain ⟨z3, hz3⟩ := @interc_ends [10, 10] _ _ hll
  have hshape : interc [10, 10] (p0 :: tl) = c0 :: (p0t ++ z) := by
    rw [hz, hc0]; rfl
  have hshape2 : c0 :: (p0t ++ z) = (z3 ++ x2) ++ [c2] := by
    rw [← hshape, hz3, hx2, List.append_assoc]
  rw [hshape]
  exact pyStrip_eq_self hc0nws hc2 hshape2

/-- Re-splitting a blank-line join of paragraph-shaped parts recovers
the parts. -/
theorem paraOf_join {L : List (List Nat)} (hne : L ≠ [])
    (h : ∀ p ∈ L, p ≠ [] ∧ pyStrip p = p ∧ noDNL p = true) :
    paragraphsOf (interc [10, 10] L) = L := by
  unfold paragraphsOf
  rw [interc_strip_fixed hne (fun p hp => ⟨(h p hp).1, (h p hp).2.1⟩)]
  rw [splitDNL_join L hne h]
  rw [map_id_of_fixed (fun p hp => (h p hp).2.1)]
  exact filter_id_of (fun p hp => by simpa using (h p hp).1)

theorem paragraphsOf_strip (t : List Nat) :
    paragraphsOf (pyStrip t) = paragraphsOf t := by
  unfold paragraphsOf
  rw [pyStrip_idem]

theorem paragraphsOf_nil {t : List Nat} (h : paragraphsOf t = []) : pyStrip t = [] := by
  cases hps : pyStrip t with
  | nil => rfl
  | cons c y =>
    exfalso
    have hc : pyWs c = false := pyStrip_head hps
    obtain ⟨q, qs, hqs, hqshape⟩ := splitDNL_head c y
    rcases hqshape with ⟨-, h10⟩ | ⟨q2, hq2⟩
    · subst h10
      exact absurd hc (by decide)
    · have hqmem : q ∈ splitDNL (pyStrip t) := by
        rw [hps, hqs]
        exact List.mem_cons_self q qs
      have hqsne : pyStrip q ≠ [] := by
        rw [hq2]
        exact pyStrip_cons_ne hc
      have hmem2 : pyStrip q ∈ (splitDNL (pyStrip t)).map pyStrip :=
        List.mem_map.mpr ⟨q, hqmem, rfl⟩
      have : pyStrip q ∈ paragraphsOf t := by
        unfold paragraphsOf
        exact List.mem_filter.mpr ⟨hmem2, by simpa using hqsne⟩
      rw [h] at this
      simp at this

/-! ### The chunker's linked-interval invariant -/

theorem offAt_succ {ps : List (List Nat)} {j : Nat} {p : List Nat} {rem : List (List Nat)}
    (h : ps.drop j = p :: rem) : offAt ps (j + 1) = offAt ps j + (p.length + 2) := by
  unfold offAt
  rw [List.take_add, h]
  rw [show (p :: rem).take 1 = [p] from rfl]
  rw [List.map_append, List.sum_append]
  rfl

theorem slice_snoc {ps : List (List Nat)} {a j : Nat} {p : List Nat}
    {rem : List (List Nat)} (ha : a ≤ j) (h : ps.drop j = p :: rem) :
    (ps.drop a).take (j + 1 - a) = (ps.drop a).take (j - a) ++ [p] := by
  have h1 : j + 1 - a = (j - a) + 1 := by omega
  rw [h1, List.take_add]
  congr 1
  rw [List.drop_drop, show a + (j - a) = j by omega, h]
  rfl

theorem drop_pred_cons {ps : List (List Nat)} {j : Nat} {p : List Nat}
    {rem : List (List Nat)} (hj : 1 ≤ j) (h : ps.drop (j - 1) = p :: rem) :
    ps.drop j = rem := by
  have h2 : ps.drop j = (ps.drop (j - 1)).drop 1 := by
    rw [List.drop_drop, show j - 1 + 1 = j by omega]
  rw [h2, h]
  rfl

theorem chain_snoc {ps : List (List Nat)} {d : List Nat} :
    ∀ {a : Nat} {cs : List Chunk} {e : Nat}, ChunkChain ps d a cs e →
    ∀ {c b : Nat}, e < c → c ≤ ps.length → (b = c - 1 ∨ b = c) →
    ChunkChain ps d a
      (cs ++ [⟨interc [10, 10] ((ps.drop e).take (c - e)), d, e, offAt ps c⟩]) b := by
  intro a cs e hch
  induction hch with
  | nil a0 =>
    intro c b hec hcn hb
    rw [List.nil_append]
    exact ChunkChain.cons a0 c b b [] hec hcn hb (ChunkChain.nil b)
  | cons a0 c0 b0 e0 rest ha0 hc0 hb0 hrest ih =>
    intro c b hec hcn hb
    rw [List.cons_append]
    exact ChunkChain.cons a0 c0 b0 b _ ha0 hc0 hb0 (ih hec hcn hb)

theorem chunkLoop_inv (ps : List (List Nat)) (d : List Nat) (csz : Nat) :
    ∀ (rem : List (List Nat)) (j : Nat) (s : CState),
    ps.drop j = rem → j ≤ ps.length →
    s.cur = (ps.drop s.psi).take (j - s.psi) → s.psi ≤ j →
    s.off = offAt ps j →
    ChunkChain ps d 0 s.chunks s.psi →
    (chunkLoop d csz j s rem).cur =
        (ps.drop (chunkLoop d csz j s rem).psi).take
          (ps.length - (chunkLoop d csz j s rem).psi) ∧
    (chunkLoop d csz j s rem).psi ≤ ps.length ∧
    (chunkLoop d csz j s rem).off = offAt ps ps.length ∧
    ChunkChain ps d 0 (chunkLoop d csz j s rem).chunks (chunkLoop d csz j s rem).psi := by
  intro rem
  induction rem with
  | nil =>
    intro j s hdrop hj hcur hpsi hoff hchain
    have hj2 : j = ps.length := by
      have := List.drop_eq_nil_iff_le.mp hdrop
      omega
    subst hj2
    exact ⟨hcur, hpsi, hoff, hchain⟩
  | cons p rem2 ih =>
    intro j s hdrop hj hcur hpsi hoff hchain
    have hlendrop : (ps.drop j).length = ps.length - j := List.length_drop j ps
    have hjlt : j < ps.length := by
      rw [hdrop] at hlendrop
      simp at hlendrop
      omega
    have hdropsucc : ps.drop (j + 1) = rem2 := by
      have h2 : ps.drop (j + 1) = (ps.drop j).drop 1 := by
        rw [List.drop_drop, Nat.add_comm]
      rw [h2, hdrop]
      rfl
    rw [show chunkLoop d csz j s (p :: rem2) =
      chunkLoop d csz (j + 1) (chunkStep d csz j p s) rem2 from rfl]
    by_cases hC : csz < s.curLen + p.length ∧ s.cur ≠ []
    · have hpsij : s.psi < j := by
        rcases Nat.lt_or_ge s.psi j with h | h
        · exact h
        · exfalso
          have hpj : s.psi = j := by omega
          rw [hpj] at hcur
          simp at hcur
          exact hC.2 hcur
      by_cases hlen : 1 < s.cur.length
      · -- close with one-paragraph overlap
        obtain ⟨q, qrem, hq⟩ : ∃ q qrem, ps.drop (j - 1) = q :: qrem := by
          have hne : ps.drop (j - 1) ≠ [] := by
            intro hcon
            have := List.drop_eq_nil_iff_le.mp hcon
            omega
          obtain ⟨q, qrem, h3⟩ := List.exists_cons_of_ne_nil hne
          exact ⟨q, qrem, h3⟩
        have hqrem : qrem = p :: rem2 := by
          have := drop_pred_cons (by omega) hq
          rw [hdrop] at this
          exact this.symm
        have hslice : (ps.drop s.psi).take (j - s.psi) =
            (ps.drop s.psi).take (j - 1 - s.psi) ++ [q] := by
          have := slice_snoc (a := s.psi) (j := j - 1) (by omega) hq
          rw [show j - 1 + 1 - s.psi = j - s.psi by omega] at this
          exact this
        have hlastp : s.cur.getLastD [] = q := by
          rw [hcur, hslice, List.getLastD_concat]
        have hstep : chunkStep d csz j p s =
            ⟨s.chunks ++ [⟨interc [10, 10] s.cur, d, s.psi, s.off⟩],
              [s.cur.getLastD []] ++ [p], (s.cur.getLastD []).length + p.length,
              s.off + p.length + 2, j - 1⟩ := by
          simp only [chunkStep]
          rw [if_pos hC, if_pos hlen]
        rw [hstep]
        apply ih (j + 1) _ hdropsucc (by omega)
        · show [s.cur.getLastD []] ++ [p] = (ps.drop (j - 1)).take (j + 1 - (j - 1))
          rw [hlastp, show j + 1 - (j - 1) = 2 by omega, hq, hqrem]
          rfl
        · show j - 1 ≤ j + 1
          omega
        · show s.off + p.length + 2 = offAt ps (j + 1)
          rw [offAt_succ hdrop, hoff]
          omega
        · show ChunkChain ps d 0
            (s.chunks ++ [⟨interc [10, 10] s.cur, d, s.psi, s.off⟩]) (j - 1)
          rw [hcur, hoff]
          exact chain_snoc hchain hpsij (by omega) (Or.inl rfl)
      · -- close with buffer reset
        have hstep : chunkStep d csz j p s =
            ⟨s.chunks ++ [⟨interc [10, 10] s.cur, d, s.psi, s.off⟩],
              [] ++ [p], 0 + p.length, s.off + p.length + 2, j⟩ := by
          simp only [chunkStep]
          rw [if_pos hC, if_neg hlen]
        rw [hstep]
        apply ih (j + 1) _ hdropsucc (by omega)
        · show [] ++ [p] = (ps.drop j).take (j + 1 - j)
          rw [hdrop, show j + 1 - j = 1 by omega]
          rfl
        · show j ≤ j + 1
          omega
        · show s.off + p.length + 2 = offAt ps (j + 1)
          rw [offAt_succ hdrop, hoff]
          omega
        · show ChunkChain ps d 0
            (s.chunks ++ [⟨interc [10, 10] s.cur, d, s.psi, s.off⟩]) j
          rw [hcur, hoff]
          exact chain_snoc hchain hpsij (by omega) (Or.inr rfl)
    · have hstep : chunkStep d csz j p s =
          ⟨s.chunks, s.cur ++ [p], s.curLen + p.length,
            s.off + p.length + 2, s.psi⟩ := by
        simp only [chunkStep]
        rw [if_neg hC]
      rw [hstep]
      apply ih (j + 1) _ hdropsucc (by omega)
      · show s.cur ++ [p] = (ps.drop s.psi).take (j + 1 - s.psi)
        rw [hcur, slice_snoc hpsi hdrop]
      · show s.psi ≤ j + 1
        omega
      · show s.off + p.length + 2 = offAt ps (j + 1)
        rw [offAt_succ hdrop, hoff]
        omega
      · exact hchain

theorem chain_nil_inv {ps : List (List Nat)} {d : List Nat} {a e : Nat}
    (h : ChunkChain ps d a [] e) : e = a := by
  cases h
  rfl

/-- Main structure theorem of the chunker: for degenerate input the
single fallback chunk is returned; otherwise the output is a nonempty
linked-interval chain over the paragraph list, ending at its length. -/
theorem chunk_main (text d : List Nat) (csz ov : Nat) :
    (paragraphsOf text = [] ∧
      preprocess_and_chunk text d csz ov = [⟨pyStrip text, d, 0, 0⟩]) ∨
    (preprocess_and_chunk text d csz ov ≠ [] ∧
      ChunkChain (paragraphsOf text) d 0 (preprocess_and_chunk text d csz ov)
        (paragraphsOf text).length) := by
  obtain ⟨hcur, hpsi, hoff, hchain⟩ :=
    chunkLoop_inv (paragraphsOf text) d csz (paragraphsOf text) 0 ⟨[], [], 0, 0, 0⟩
      rfl (Nat.zero_le _) rfl (Nat.zero_le _) rfl (ChunkChain.nil 0)
  have hout : preprocess_and_chunk text d csz ov =
      (let s := chunkLoop d csz 0 ⟨[], [], 0, 0, 0⟩ (paragraphsOf text)
       let chunks := if s.cur ≠ [] then
           s.chunks ++ [⟨interc [10, 10] s.cur, d, s.psi, s.off⟩] else s.chunks
       if chunks ≠ [] then chunks else [⟨pyStrip text, d, 0, 0⟩]) := rfl
  generalize hS : chunkLoop d csz 0 ⟨[], [], 0, 0, 0⟩ (paragraphsOf text) = S at hcur hpsi hoff hchain hout
  simp only at hout
  by_cases hScur : S.cur = []
  · rw [if_neg (show ¬ S.cur ≠ [] from fun hcon => hcon hScur)] at hout
    cases hchunks : S.chunks with
    | nil =>
      left
      rw [hchunks] at hout
      rw [if_neg (show ¬ (([] : List Chunk) ≠ []) from fun hcon => hcon rfl)] at hout
      have hpsi0 : S.psi = 0 := by
        rw [hchunks] at hchain
        exact chain_nil_inv hchain
      have hpsin : S.psi = (paragraphsOf text).length := by
        by_contra h
        have hlt : S.psi < (paragraphsOf text).length := by omega
        have hlen := congrArg List.length hcur
        rw [hScur] at hlen
        simp [List.length_take, List.length_drop] at hlen
        omega
      have hps : paragraphsOf text = [] :=
        List.length_eq_zero.mp (by omega)
      exact ⟨hps, hout⟩
    | cons ch cs =>
      right
      rw [hchunks] at hout
      rw [if_pos (show (ch :: cs) ≠ [] from by simp)] at hout
      have hpsin : S.psi = (paragraphsOf text).length := by
        by_contra h
        have hlt : S.psi < (paragraphsOf text).length := by omega
        have hlen := congrArg List.length hcur
        rw [hScur] at hlen
        simp [List.length_take, List.length_drop] at hlen
        omega
      rw [hpsin, hchunks] at hchain
      rw [hout]
      exact ⟨by simp, hchain⟩
  · rw [if_pos (show S.cur ≠ [] from hScur)] at hout
    rw [if_pos (show (S.chunks ++
      [(⟨interc [10, 10] S.cur, d, S.psi, S.off⟩ : Chunk)]) ≠ [] from by simp)] at hout
    right
    have hpsilt : S.psi < (paragraphsOf text).length := by
      rcases Nat.lt_or_ge S.psi (paragraphsOf text).length with h | h
      · exact h
      · exfalso
        have hpsieq : S.psi = (paragraphsOf text).length := by omega
        rw [hpsieq] at hcur
        simp at hcur
        exact hScur hcur
    have hchain2 : ChunkChain (paragraphsOf text) d 0
        (S.chunks ++ [⟨interc [10, 10] S.cur, d, S.psi, S.off⟩])
        (paragraphsOf text).length := by
      rw [hcur, hoff]
      exact chain_snoc hchain hpsilt le_rfl (Or.inr rfl)
    rw [hout]
    exact ⟨by simp, hchain2⟩

/-! ### Consequences of the chain invariant -/

theorem chain_cons_inv {ps : List (List Nat)} {d : List Nat} {a : Nat} {ch : Chunk}
    {cs : List Chunk} {e : Nat} (h : ChunkChain ps d a (ch :: cs) e) :
    ∃ c2 b, a < c2 ∧ c2 ≤ ps.length ∧ (b = c2 - 1 ∨ b = c2) ∧
      ch = ⟨interc [10, 10] ((ps.drop a).take (c2 - a)), d, a, offAt ps c2⟩ ∧
      ChunkChain ps d b cs e := by
  cases h with
  | cons a c b e rest ha hc hb hrest => exact ⟨c, b, ha, hc, hb, rfl, hrest⟩

theorem chain_mem_shape {ps : List (List Nat)} {d : List Nat} : ∀ (cs : List Chunk)
    (a e : Nat), ChunkChain ps d a cs e → ∀ ch ∈ cs, ∃ a2 c2, a2 < c2 ∧ c2 ≤ ps.length ∧
    ch = ⟨interc [10, 10] ((ps.drop a2).take (c2 - a2)), d, a2, offAt ps c2⟩ := by
  intro cs
  induction cs with
  | nil => intro a e _ ch hm; simp at hm
  | cons ch0 cs ih =>
    intro a e hch ch hm
    obtain ⟨c2, b, ha, hc, hb, hch0, hrest⟩ := chain_cons_inv hch
    rcases List.mem_cons.mp hm with h1 | h2
    · exact ⟨a, c2, ha, hc, h1 ▸ hch0⟩
    · exact ih b e hrest ch h2

theorem slice_ne_nil {ps : List (List Nat)} {a c : Nat} (ha : a < c)
    (hc : c ≤ ps.length) : (ps.drop a).take (c - a) ≠ [] := by
  intro hcon
  have hlen := congrArg List.length hcon
  simp [List.length_take, List.length_drop] at hlen
  omega

theorem slice_length {ps : List (List Nat)} {a c : Nat} (ha : a ≤ c)
    (hc : c ≤ ps.length) : ((ps.drop a).take (c - a)).length = c - a := by
  simp [List.length_take, List.length_drop]
  omega

theorem slice_mem {ps : List (List Nat)} {a k : Nat} {p : List Nat}
    (h : p ∈ (ps.drop a).take k) : p ∈ ps :=
  (List.drop_sublist a ps).mem ((List.take_sublist k _).mem h)

theorem paraOf_slice {text : List Nat} {a c : Nat} (ha : a < c)
    (hc : c ≤ (paragraphsOf text).length) :
    paragraphsOf (interc [10, 10] (((paragraphsOf text).drop a).take (c - a))) =
      ((paragraphsOf text).drop a).take (c - a) := by
  apply paraOf_join (slice_ne_nil ha hc)
  intro p hp
  exact paragraphsOf_props p (slice_mem hp)

theorem slice_drop_one {ps : List (List Nat)} {a k : Nat} :
    ((ps.drop a).take k).drop 1 = (ps.drop (a + 1)).take (k - 1) := by
  rw [List.drop_take, List.drop_drop, Nat.add_comm a 1]

theorem slice_app_drop {ps : List (List Nat)} {a b : Nat} (hab : a ≤ b) :
    (ps.drop a).take (b - a) ++ ps.drop b = ps.drop a := by
  conv_rhs => rw [← List.take_append_drop (b - a) (ps.drop a)]
  congr 1
  rw [List.drop_drop, show a + (b - a) = b by omega]

theorem chain_dedupGo {text d : List Nat} : ∀ (cs : List Chunk) (c : Nat),
    1 ≤ c → c ≤ (paragraphsOf text).length →
    (ChunkChain (paragraphsOf text) d (c - 1) cs (paragraphsOf text).length ∨
      ChunkChain (paragraphsOf text) d c cs (paragraphsOf text).length) →
    dedupGo c cs = (paragraphsOf text).drop c := by
  intro cs
  induction cs with
  | nil =>
    intro c h1 hcn hch
    rcases hch with h | h
    · have hinv := chain_nil_inv h
      exfalso
      omega
    · have hinv := chain_nil_inv h
      rw [show dedupGo c [] = [] from rfl, ← hinv, List.drop_length]
  | cons ch cs ih =>
    intro c h1 hcn hch
    rcases hch with h | h
    · obtain ⟨c2, b, ha, hc2, hb, hch0, hrest⟩ := chain_cons_inv h
      subst hch0
      show (if c - 1 < c then
          (chunkParas ⟨interc [10, 10] (((paragraphsOf text).drop (c - 1)).take (c2 - (c - 1))),
            d, c - 1, offAt (paragraphsOf text) c2⟩).drop 1
        else chunkParas ⟨interc [10, 10] (((paragraphsOf text).drop (c - 1)).take (c2 - (c - 1))),
            d, c - 1, offAt (paragraphsOf text) c2⟩) ++
        dedupGo ((c - 1) + (chunkParas ⟨interc [10, 10]
          (((paragraphsOf text).drop (c - 1)).take (c2 - (c - 1))),
            d, c - 1, offAt (paragraphsOf text) c2⟩).length) cs =
        (paragraphsOf text).drop c
      have hcp : chunkParas ⟨interc [10, 10]
          (((paragraphsOf text).drop (c - 1)).take (c2 - (c - 1))),
            d, c - 1, offAt (paragraphsOf text) c2⟩ =
          ((paragraphsOf text).drop (c - 1)).take (c2 - (c - 1)) :=
        paraOf_slice ha hc2
      rw [if_pos (show c - 1 < c by omega), hcp]
      rw [slice_drop_one, show c - 1 + 1 = c by omega]
      rw [slice_length (le_of_lt ha) hc2]
      rw [show c - 1 + (c2 - (c - 1)) = c2 by omega]
      rw [show c2 - (c - 1) - 1 = c2 - c by omega]
      rw [ih c2 (by omega) hc2 (by
        rcases hb with hb | hb
        · exact Or.inl (hb ▸ hrest)
        · exact Or.inr (hb ▸ hrest))]
      exact slice_app_drop (by omega)
    · obtain ⟨c2, b, ha, hc2, hb, hch0, hrest⟩ := chain_cons_inv h
      subst hch0
      show (if c < c then
          (chunkParas ⟨interc [10, 10] (((paragraphsOf text).drop c).take (c2 - c)),
            d, c, offAt (paragraphsOf text) c2⟩).drop 1
        else chunkParas ⟨interc [10, 10] (((paragraphsOf text).drop c).take (c2 - c)),
            d, c, offAt (paragraphsOf text) c2⟩) ++
        dedupGo (c + (chunkParas ⟨interc [10, 10]
          (((paragraphsOf text).drop c).take (c2 - c)),
            d, c, offAt (paragraphsOf text) c2⟩).length) cs =
        (paragraphsOf text).drop c
      have hcp : chunkParas ⟨interc [10, 10]
          (((paragraphsOf text).drop c).take (c2 - c)),
            d, c, offAt (paragraphsOf text) c2⟩ =
          ((paragraphsOf text).drop c).take (c2 - c) :=
        paraOf_slice ha hc2
      rw [if_neg (show ¬ c < c by omega), hcp]
      rw [slice_length (le_of_lt ha) hc2]
      rw [show c + (c2 - c) = c2 by omega]
      rw [ih c2 (by omega) hc2 (by
        rcases hb with hb | hb
        · exact Or.inl (hb ▸ hrest)
        · exact Or.inr (hb ▸ hrest))]
      exact slice_app_drop (le_of_lt ha)

theorem chain_dedup {text d : List Nat} {cs : List Chunk}
    (hch : ChunkChain (paragraphsOf text) d 0 cs (paragraphsOf text).length)
    (hne : cs ≠ []) : dedupConcat cs = paragraphsOf text := by
  obtain ⟨ch, rest, rfl⟩ := List.exists_cons_of_ne_nil hne
  obtain ⟨c2, b, ha, hc2, hb, hch0, hrest⟩ := chain_cons_inv hch
  subst hch0
  show chunkParas ⟨interc [10, 10] (((paragraphsOf text).drop 0).take (c2 - 0)),
      d, 0, offAt (paragraphsOf text) c2⟩ ++
    dedupGo (0 + (chunkParas ⟨interc [10, 10]
      (((paragraphsOf text).drop 0).take (c2 - 0)),
        d, 0, offAt (paragraphsOf text) c2⟩).length) rest = paragraphsOf text
  have hcp : chunkParas ⟨interc [10, 10] (((paragraphsOf text).drop 0).take (c2 - 0)),
      d, 0, offAt (paragraphsOf text) c2⟩ =
      ((paragraphsOf text).drop 0).take (c2 - 0) :=
    paraOf_slice ha hc2
  rw [hcp, slice_length (by omega) hc2]
  rw [show 0 + (c2 - 0) = c2 by omega]
  rw [chain_dedupGo rest c2 (by omega) hc2 (by
    rcases hb with hb | hb
    · exact Or.inl (hb ▸ hrest)
    · exact Or.inr (hb ▸ hrest))]
  exact slice_app_drop (by omega)

theorem dedupGo_mem : ∀ {cs : List Chunk} {pe : Nat} {p : List Nat},
    p ∈ dedupGo pe cs → ∃ ch ∈ cs, p ∈ chunkParas ch := by
  intro cs
  induction cs with
  | nil => intro pe p h; simp [dedupGo] at h
  | cons ch cs ih =>
    intro pe p h
    rw [show dedupGo pe (ch :: cs) =
      (if ch.paragraph_index < pe then (chunkParas ch).drop 1 else chunkParas ch) ++
        dedupGo (ch.paragraph_index + (chunkParas ch).length) cs from rfl] at h
    rcases List.mem_append.mp h with h1 | h2
    · refine ⟨ch, List.mem_cons_self ch cs, ?_⟩
      by_cases hif : ch.paragraph_index < pe
      · rw [if_pos hif] at h1
        exact (List.drop_sublist 1 _).mem h1
      · rw [if_neg hif] at h1
        exact h1
    · obtain ⟨ch2, hm, hp⟩ := ih h2
      exact ⟨ch2, List.mem_cons_of_mem _ hm, hp⟩

theorem dedupConcat_mem {cs : List Chunk} {p : List Nat}
    (h : p ∈ dedupConcat cs) : ∃ ch ∈ cs, p ∈ chunkParas ch := by
  cases cs with
  | nil => simp [dedupConcat] at h
  | cons ch rest =>
    rw [show dedupConcat (ch :: rest) = chunkParas ch ++
      dedupGo (ch.paragraph_index + (chunkParas ch).length) rest from rfl] at h
    rcases List.mem_append.mp h with h1 | h2
    · exact ⟨ch, List.mem_cons_self ch rest, h1⟩
    · obtain ⟨ch2, hm, hp⟩ := dedupGo_mem h2
      exact ⟨ch2, List.mem_cons_of_mem _ hm, hp⟩

theorem chain_overlap_bound {text d : List Nat} : ∀ (cs : List Chunk) (a e : Nat),
    ChunkChain (paragraphsOf text) d a cs e →
    List.Chain' (fun c1 c2 => c1.paragraph_index + (chunkParas c1).length ≤
      c2.paragraph_index + 1 ∧
      c2.paragraph_index ≤ c1.paragraph_index + (chunkParas c1).length) cs := by
  intro cs
  induction cs with
  | nil => intro a e _; exact List.chain'_nil
  | cons ch cs ih =>
    intro a e hch
    obtain ⟨c2, b, ha, hc2, hb, hch0, hrest⟩ := chain_cons_inv hch
    cases cs with
    | nil =>
      subst hch0
      exact List.chain'_singleton _
    | cons ch2 cs2 =>
      obtain ⟨c3, b2, ha2, hc3, hb2, hch2, hrest2⟩ := chain_cons_inv hrest
      refine List.Chain'.cons ?_ (ih b e hrest)
      subst hch0
      subst hch2
      have hcp : chunkParas ⟨interc [10, 10]
          (((paragraphsOf text).drop a).take (c2 - a)),
            d, a, offAt (paragraphsOf text) c2⟩ =
          ((paragraphsOf text).drop a).take (c2 - a) :=
        paraOf_slice ha hc2
      show a + (chunkParas ⟨interc [10, 10]
          (((paragraphsOf text).drop a).take (c2 - a)),
            d, a, offAt (paragraphsOf text) c2⟩).length ≤ b + 1 ∧
        b ≤ a + (chunkParas ⟨interc [10, 10]
          (((paragraphsOf text).drop a).take (c2 - a)),
            d, a, offAt (paragraphsOf text) c2⟩).length
      rw [hcp, slice_length (le_of_lt ha) hc2]
      omega

/-! ### Claim theorems for the chunker -/

/-- C1 counterexample: on the spec's own scenario
`"Name: Alice\n\nAge: 30"` with `chunk_size = 2000` the chunker emits
exactly one chunk with `paragraph_index = 0`, but its offset is `22`
(the running total after *both* paragraphs were consumed, i.e. at the
moment the chunk was emitted), not `0` (the total when the chunk's
buffer was opened), refuting the claimed offset semantics. -/
theorem chunk_offset_scenario_refuted :
    (preprocess_and_chunk (strN ("Name: Alice\n\nAge: 30")) (strN ("D1")) 2000 200).map
      Chunk.offset = [22] ∧
    (preprocess_and_chunk (strN ("Name: Alice\n\nAge: 30")) (strN ("D1")) 2000 200).map
      Chunk.offset ≠ [0] ∧
    (preprocess_and_chunk (strN ("Name: Alice\n\nAge: 30")) (strN ("D1")) 2000 200).map
      Chunk.paragraph_index = [0] := by decide

/-- C1 (amended): every chunk emitted by `preprocess_and_chunk` carries
as offset the running character total (paragraph lengths plus 2 per
`\n\n` separator) accumulated at the moment the chunk is *emitted*,
i.e. the total over all paragraphs up to and including the chunk's last
paragraph — not the total at the moment the chunk's buffer was
opened. -/
theorem chunk_offset_at_emission (text d : List Nat) (csz ov : Nat) :
    ∀ ch ∈ preprocess_and_chunk text d csz ov,
      ch.offset = offAt (paragraphsOf text)
        (ch.paragraph_index + (chunkParas ch).length) := by
  intro ch hm
  rcases chunk_main text d csz ov with ⟨hps, hout⟩ | ⟨hne, hch⟩
  · rw [hout] at hm
    have hcheq : ch = ⟨pyStrip text, d, 0, 0⟩ := by simpa using hm
    subst hcheq
    have hcp : chunkParas ⟨pyStrip text, d, 0, 0⟩ = [] := by
      show paragraphsOf (pyStrip text) = []
      rw [paragraphsOf_strip]
      exact hps
    show (0 : Nat) = offAt (paragraphsOf text)
      (0 + (chunkParas ⟨pyStrip text, d, 0, 0⟩).length)
    rw [hcp]
    rfl
  · obtain ⟨a2, c2, ha, hc2, rfl⟩ :=
      chain_mem_shape (preprocess_and_chunk text d csz ov) 0
        (paragraphsOf text).length hch ch hm
    have hcp : chunkParas ⟨interc [10, 10]
        (((paragraphsOf text).drop a2).take (c2 - a2)),
          d, a2, offAt (paragraphsOf text) c2⟩ =
        ((paragraphsOf text).drop a2).take (c2 - a2) :=
      paraOf_slice ha hc2
    show offAt (paragraphsOf text) c2 = offAt (paragraphsOf text)
      (a2 + (chunkParas ⟨interc [10, 10]
        (((paragraphsOf text).drop a2).take (c2 - a2)),
          d, a2, offAt (paragraphsOf text) c2⟩).length)
    rw [hcp, slice_length (le_of_lt ha) hc2, show a2 + (c2 - a2) = c2 by omega]

theorem chunk_offset_at_emission_witness :
    (⟨strN ("Name: Alice\n\nAge: 30"), strN ("D1"), 0, 22⟩ : Chunk).offset =
      offAt (paragraphsOf (strN ("Name: Alice\n\nAge: 30")))
        ((⟨strN ("Name: Alice\n\nAge: 30"), strN ("D1"), 0, 22⟩ : Chunk).paragraph_index +
          (chunkParas ⟨strN ("Name: Alice\n\nAge: 30"), strN ("D1"), 0, 22⟩).length) :=
  chunk_offset_at_emission (strN ("Name: Alice\n\nAge: 30")) (strN ("D1")) 2000 200
    ⟨strN ("Name: Alice\n\nAge: 30"), strN ("D1"), 0, 22⟩ (by decide)

/-- C3: chunk coverage — for any text and any `chunk_size ≥ 1`, the
overlap-deduplicated concatenation of the emitted chunks' paragraph
lists reconstructs the input's paragraph sequence in order, and every
non-empty paragraph of the input appears in at least one emitted
chunk. -/
theorem chunk_coverage (text d : List Nat) (csz ov : Nat) (hcsz : 1 ≤ csz) :
    dedupConcat (preprocess_and_chunk text d csz ov) = paragraphsOf text ∧
    ∀ p ∈ paragraphsOf text,
      ∃ ch ∈ preprocess_and_chunk text d csz ov, p ∈ chunkParas ch := by
  rcases chunk_main text d csz ov with ⟨hps, hout⟩ | ⟨hne, hch⟩
  · constructor
    · rw [hout, hps]
      have hcp : chunkParas ⟨pyStrip text, d, 0, 0⟩ = [] := by
        show paragraphsOf (pyStrip text) = []
        rw [paragraphsOf_strip]
        exact hps
      show chunkParas ⟨pyStrip text, d, 0, 0⟩ ++
        dedupGo (0 + (chunkParas ⟨pyStrip text, d, 0, 0⟩).length) [] = []
      rw [hcp]
      rfl
    · intro p hp
      rw [hps] at hp
      exact absurd hp (List.not_mem_nil p)
  · refine ⟨chain_dedup hch hne, ?_⟩
    intro p hp
    rw [← chain_dedup hch hne] at hp
    exact dedupConcat_mem hp

theorem chunk_coverage_witness :
    dedupConcat (preprocess_and_chunk (strN ("aa\n\nbb\n\nppppp")) (strN ("D1")) 4 200) =
      paragraphsOf (strN ("aa\n\nbb\n\nppppp")) :=
  (chunk_coverage (strN ("aa\n\nbb\n\nppppp")) (strN ("D1")) 4 200 (by decide)).1

/-- C4 counterexample: with text `"aa\n\nbb\n\nppppp"` and
`chunk_size = 4`, the paragraph `"ppppp"` is longer than the chunk
size, yet no emitted chunk consists of it alone: it shares its chunk
with the retained overlap paragraph `"bb"`, refuting "it occupies its
own chunk". -/
theorem oversized_paragraph_shares_chunk :
    (preprocess_and_chunk (strN ("aa\n\nbb\n\nppppp")) (strN ("D1")) 4 200).map Chunk.text =
      [strN ("aa\n\nbb"), strN ("bb\n\nppppp")] ∧
    4 < (strN ("ppppp")).length ∧
    ¬ (∃ ch ∈ preprocess_and_chunk (strN ("aa\n\nbb\n\nppppp")) (strN ("D1")) 4 200,
        ch.text = strN ("ppppp")) := by decide

/-- C4 (amended): paragraph atomicity — every emitted chunk's text is
the `\n\n`-join of a contiguous run of whole input paragraphs starting
at the chunk's paragraph index, so no paragraph is ever split across
chunks; an oversized paragraph is not split either, but it may share
its chunk with the single retained overlap paragraph rather than
occupy a chunk alone. -/
theorem chunk_paragraph_atomicity (text d : List Nat) (csz ov : Nat) :
    ∀ ch ∈ preprocess_and_chunk text d csz ov, ∃ k,
      ch.text = interc [10, 10]
        (((paragraphsOf text).drop ch.paragraph_index).take k) := by
  intro ch hm
  rcases chunk_main text d csz ov with ⟨hps, hout⟩ | ⟨hne, hch⟩
  · rw [hout] at hm
    have hcheq : ch = ⟨pyStrip text, d, 0, 0⟩ := by simpa using hm
    subst hcheq
    refine ⟨0, ?_⟩
    show pyStrip text = interc [10, 10] (((paragraphsOf text).drop 0).take 0)
    rw [paragraphsOf_nil hps]
    rfl
  · obtain ⟨a2, c2, ha, hc2, rfl⟩ :=
      chain_mem_shape (preprocess_and_chunk text d csz ov) 0
        (paragraphsOf text).length hch ch hm
    exact ⟨c2 - a2, rfl⟩

theorem chunk_paragraph_atomicity_witness :
    ∃ k, (⟨strN ("bb\n\nppppp"), strN ("D1"), 1, 15⟩ : Chunk).text =
      interc [10, 10] (((paragraphsOf (strN ("aa\n\nbb\n\nppppp"))).drop
        (⟨strN ("bb\n\nppppp"), strN ("D1"), 1, 15⟩ : Chunk).paragraph_index).take k) :=
  chunk_paragraph_atomicity (strN ("aa\n\nbb\n\nppppp")) (strN ("D1")) 4 200
    ⟨strN ("bb\n\nppppp"), strN ("D1"), 1, 15⟩ (by decide)

/-- C10 counterexample: for text `"aaa\n\nbbb"` with `chunk_size = 3`
the two emitted chunks hold the paragraph lists `["aaa"]` and
`["bbb"]`: consecutive chunks share *no* paragraph (the closed buffer
held a single paragraph, so nothing was retained), refuting "the
overlap actually applied is always exactly one paragraph". -/
theorem zero_overlap_between_chunks :
    (preprocess_and_chunk (strN ("aaa\n\nbbb")) (strN ("D1")) 3 200).map chunkParas =
      [[strN ("aaa")], [strN ("bbb")]] ∧
    ¬ ∃ p, p ∈ [strN ("aaa")] ∧ p ∈ [strN ("bbb")] := by decide

/-- C10 (amended): the `overlap` parameter has no effect on the output
of `preprocess_and_chunk`, and the paragraph overlap actually applied
between consecutive chunks is *at most* one paragraph (the next chunk
starts at the previous chunk's last paragraph or right after it), not
always exactly one. -/
theorem overlap_param_no_effect (text d : List Nat) (csz o1 o2 : Nat) :
    preprocess_and_chunk text d csz o1 = preprocess_and_chunk text d csz o2 ∧
    List.Chain' (fun c1 c2 => c1.paragraph_index + (chunkParas c1).length ≤
      c2.paragraph_index + 1 ∧
      c2.paragraph_index ≤ c1.paragraph_index + (chunkParas c1).length)
      (preprocess_and_chunk text d csz o1) := by
  refine ⟨rfl, ?_⟩
  rcases chunk_main text d csz o1 with ⟨hps, hout⟩ | ⟨hne, hch⟩
  · rw [hout]
    exact List.chain'_singleton _
  · exact chain_overlap_bound (preprocess_and_chunk text d csz o1) 0
      (paragraphsOf text).length hch
/-! ### Claim theorems for the extraction orchestrator -/

theorem specProvShape_colon {s : List Nat} (h : specProvShape s = true) :
    (58 : Nat) ∈ s ∧ s ≠ [] := by
  have hs := interc_splitOnOne 58 s
  unfold specProvShape at h
  cases hq : splitOnOne 58 s with
  | nil => rw [hq] at h; exact Bool.noConfusion h
  | cons p1 t1 =>
    cases t1 with
    | nil => rw [hq] at h; exact Bool.noConfusion h
    | cons p2 t2 =>
      cases t2 with
      | nil => rw [hq] at h; exact Bool.noConfusion h
      | cons p3 t3 =>
        cases t3 with
        | cons p4 t4 => rw [hq] at h; exact Bool.noConfusion h
        | nil =>
          rw [hq] at hs
          constructor
          · rw [← hs]
            simp [interc]
          · intro hcon
            rw [hcon] at hs
            simp [interc] at hs

/-- C5 counterexample: a record whose provenance is the truthy string
`"x:y"` — which contains a colon but does *not* match the
`doc_id:paragraph_index:char_start-char_end` shape — is left unchanged
by the back-fill, refuting "if its provenance does not match the shape
the orchestrator replaces it": the source only tests falsiness and
colon membership, not the shape. -/
theorem provenance_shape_not_validated :
    backfillItem (strN ("D1")) 0 10
      (JValue.jobj [(provKey, JValue.jstr (strN ("x:y")))]) =
      Except.ok (JValue.jobj [(provKey, JValue.jstr (strN ("x:y")))]) ∧
    specProvShape (strN ("x:y")) = false ∧
    strN ("x:y") ≠ defaultProv (strN ("D1")) 0 10 :=
  ⟨rfl, by decide, by decide⟩

/-- C5 (amended): the back-fill on a decoded record replaces the
provenance with the default `doc_id:paragraph_index:0-<chunk length>`
exactly when the provenance is absent, falsy, or a string without a
colon; any truthy provenance string containing a colon — in
particular, but not only, one matching the spec's
`doc_id:paragraph_index:char_start-char_end` shape — is left
unchanged. -/
theorem provenance_backfill_rule (d : List Nat) (pi clen : Nat)
    (fields : List (List Nat × JValue)) :
    (∀ s, pyDictGet fields provKey = some (JValue.jstr s) → s ≠ [] → (58 : Nat) ∈ s →
      backfillItem d pi clen (JValue.jobj fields) = Except.ok (JValue.jobj fields)) ∧
    (∀ s, pyDictGet fields provKey = some (JValue.jstr s) → specProvShape s = true →
      backfillItem d pi clen (JValue.jobj fields) = Except.ok (JValue.jobj fields)) ∧
    (pyDictGet fields provKey = none →
      backfillItem d pi clen (JValue.jobj fields) =
        Except.ok (JValue.jobj (pySetField fields provKey
          (JValue.jstr (defaultProv d pi clen))))) ∧
    (∀ s, pyDictGet fields provKey = some (JValue.jstr s) → (58 : Nat) ∉ s →
      backfillItem d pi clen (JValue.jobj fields) =
        Except.ok (JValue.jobj (pySetField fields provKey
          (JValue.jstr (defaultProv d pi clen))))) := by
  have hmain : ∀ s, pyDictGet fields provKey = some (JValue.jstr s) → s ≠ [] →
      (58 : Nat) ∈ s →
      backfillItem d pi clen (JValue.jobj fields) = Except.ok (JValue.jobj fields) := by
    intro s hget hne hcol
    have hfal : pyFalsy (JValue.jstr s) = false := by
      simp [pyFalsy, hne]
    simp only [backfillItem, hget, hfal, Bool.false_eq_true, if_false]
    rw [if_pos hcol]
  refine ⟨hmain, ?_, ?_, ?_⟩
  · intro s hget hshape
    exact hmain s hget (specProvShape_colon hshape).2 (specProvShape_colon hshape).1
  · intro hget
    simp only [backfillItem, hget]
  · intro s hget hncol
    by_cases hfal : pyFalsy (JValue.jstr s) = true
    · simp only [backfillItem, hget, hfal, if_true]
    · have hfal2 : pyFalsy (JValue.jstr s) = false := Bool.eq_false_iff.mpr hfal
      simp only [backfillItem, hget, hfal2, Bool.false_eq_true, if_false]
      rw [if_neg hncol]

theorem provenance_backfill_rule_witness :
    backfillItem (strN ("D2")) 3 167
      (JValue.jobj [(provKey, JValue.jstr (strN ("D2:3:145-312")))]) =
      Except.ok (JValue.jobj [(provKey, JValue.jstr (strN ("D2:3:145-312")))]) :=
  (provenance_backfill_rule (strN ("D2")) 3 167
    [(provKey, JValue.jstr (strN ("D2:3:145-312")))]).2.1
    (strN ("D2:3:145-312")) rfl (by decide)

theorem prefix500_le (t : List Nat) : (prefix500 t).length ≤ 500 := by
  unfold prefix500
  by_cases h : t = []
  · rw [if_pos h]
    decide
  · rw [if_neg h]
    simp [List.length_take]

theorem runExtraction_append_error
    {jdecode : List Nat → Except (List Nat) JValue} {respond : Chunk → List Nat}
    {pre rest : List Chunk} {err : PyErr}
    (hpre : ∀ c2 ∈ pre, ∃ recs, extract_with_gemini jdecode c2.doc_id
      c2.paragraph_index c2.text (respond c2) = Except.ok recs)
    (hrest : runExtraction jdecode respond rest = Except.error err) :
    runExtraction jdecode respond (pre ++ rest) = Except.error err := by
  induction pre with
  | nil => simpa using hrest
  | cons c2 pre ih =>
    obtain ⟨recs, hok⟩ := hpre c2 (List.mem_cons_self c2 pre)
    have ih2 := ih (fun c3 hm => hpre c3 (List.mem_cons_of_mem _ hm))
    show (match extract_with_gemini jdecode c2.doc_id c2.paragraph_index c2.text
        (respond c2) with
      | Except.error e => Except.error e
      | Except.ok recs2 =>
        match runExtraction jdecode respond (pre ++ rest) with
        | Except.error e => Except.error e
        | Except.ok rest2 => Except.ok (recs2 ++ rest2)) = Except.error err
    rw [hok, ih2]

/-- C6: decode failure handling — if the (fence-stripped, stripped)
response for chunk `c` fails to decode with error text `e`, the
orchestrator raises the ValueError carrying the bounded response
prefix (at most 500 codepoints, or the fixed text
"No response received" for an empty response) together with `e`, and
when every chunk before `c` in the run succeeded, this error aborts
the whole run — the chunks after `c` are never processed and the run
returns this very error. -/
theorem decode_failure_aborts
    (jdecode : List Nat → Except (List Nat) JValue) (respond : Chunk → List Nat)
    (c : Chunk) (pre post : List Chunk) (e : List Nat)
    (hpre : ∀ c2 ∈ pre, ∃ recs, extract_with_gemini jdecode c2.doc_id
      c2.paragraph_index c2.text (respond c2) = Except.ok recs)
    (hfail : jdecode (stripFences (pyStrip (respond c))) = Except.error e) :
    extract_with_gemini jdecode c.doc_id c.paragraph_index c.text (respond c) =
      Except.error (PyErr.jsonDecodeFail
        (prefix500 (stripFences (pyStrip (respond c)))) e) ∧
    runExtraction jdecode respond (pre ++ c :: post) =
      Except.error (PyErr.jsonDecodeFail
        (prefix500 (stripFences (pyStrip (respond c)))) e) ∧
    (prefix500 (stripFences (pyStrip (respond c)))).length ≤ 500 := by
  have h1 : extract_with_gemini jdecode c.doc_id c.paragraph_index c.text (respond c) =
      Except.error (PyErr.jsonDecodeFail
        (prefix500 (stripFences (pyStrip (respond c)))) e) := by
    simp only [extract_with_gemini, hfail]
  refine ⟨h1, ?_, prefix500_le _⟩
  apply runExtraction_append_error hpre
  show (match extract_with_gemini jdecode c.doc_id c.paragraph_index c.text
      (respond c) with
    | Except.error e2 => Except.error e2
    | Except.ok recs2 =>
      match runExtraction jdecode respond post with
      | Except.error e2 => Except.error e2
      | Except.ok rest2 => Except.ok (recs2 ++ rest2)) =
    Except.error (PyErr.jsonDecodeFail
      (prefix500 (stripFences (pyStrip (respond c)))) e)
  rw [h1]

theorem decode_failure_aborts_witness :
    runExtraction (fun _ => Except.error (strN ("Expecting value")))
      (fun _ => strN ("not json")) ([] ++ (⟨strN ("x"), strN ("D1"), 0, 0⟩ : Chunk) :: []) =
      Except.error (PyErr.jsonDecodeFail
        (prefix500 (stripFences (pyStrip (strN ("not json")))))
        (strN ("Expecting value"))) :=
  (decode_failure_aborts (fun _ => Except.error (strN ("Expecting value")))
    (fun _ => strN ("not json")) ⟨strN ("x"), strN ("D1"), 0, 0⟩ [] []
    (strN ("Expecting value"))
    (fun c2 hm => absurd hm (List.not_mem_nil c2)) rfl).2.1

/-- C7 counterexample: a response that decodes to a *nonempty list of
non-record items* is a pipeline failure, not a tolerated case: the
back-fill loop calls `.get` on the item, and the resulting
AttributeError is re-raised (wrapped) by the generic handler, refuting
"is not a list of records → contributes zero records and processing
continues". -/
theorem nonrecord_list_raises :
    extract_with_gemini (fun _ => Except.ok (JValue.jarr [JValue.jstr (strN ("a"))]))
      (strN ("D1")) 0 (strN ("t")) (strN ("r")) =
      Except.error (PyErr.wrapped
        (strN ("Gemini API call failed: object has no attribute get"))) := rfl

/-- C7 (amended): when the decoded response is falsy (empty list,
empty string, null, 0, …) or not a nonempty list, the orchestrator
contributes zero records for the chunk and the run continues
unchanged over the remaining chunks; a nonempty list whose items are
not records, however, raises. -/
theorem empty_or_nonlist_tolerated
    (jdecode : List Nat → Except (List Nat) JValue) (respond : Chunk → List Nat)
    (c : Chunk) (post : List Chunk) (v : JValue)
    (hdec : jdecode (stripFences (pyStrip (respond c))) = Except.ok v)
    (hnl : ∀ i is, v ≠ JValue.jarr (i :: is)) :
    extract_with_gemini jdecode c.doc_id c.paragraph_index c.text (respond c) =
      Except.ok [] ∧
    runExtraction jdecode respond (c :: post) = runExtraction jdecode respond post := by
  have h1 : extract_with_gemini jdecode c.doc_id c.paragraph_index c.text (respond c) =
      Except.ok [] := by
    simp only [extract_with_gemini, hdec]
  refine ⟨h1, ?_⟩
  show (match extract_with_gemini jdecode c.doc_id c.paragraph_index c.text
      (respond c) with
    | Except.error e => Except.error e
    | Except.ok recs =>
      match runExtraction jdecode respond post with
      | Except.error e => Except.error e
      | Except.ok rest => Except.ok (recs ++ rest)) =
    runExtraction jdecode respond post
  rw [h1]
  cases hr : runExtraction jdecode respond post with
  | error e => rfl
  | ok rest => rfl

theorem empty_or_nonlist_tolerated_witness :
    extract_with_gemini (fun _ => Except.ok (JValue.jarr [])) (strN ("D1")) 0
      (strN ("t")) (strN ("r")) = Except.ok [] :=
  (empty_or_nonlist_tolerated (fun _ => Except.ok (JValue.jarr []))
    (fun _ => strN ("r")) ⟨strN ("t"), strN ("D1"), 0, 0⟩ [] (JValue.jarr [])
    rfl (fun i is h => by simp at h)).1

/-- C8: projection totality and field mapping — `convert_to_three_columns`
yields exactly one output row per input record, in order; row `i` maps
`key` to the record's `key` binding (default "unknown_key" when
absent), `value` to its `value` binding (default ""), `comments` to
its `comments` binding (default ""); the output `Row` type has only
these three fields, so `raw_value`, `provenance` and `confidence` are
dropped. -/
theorem projection_totality (items : List (List (List Nat × JValue))) :
    (convert_to_three_columns items).length = items.length ∧
    ∀ i (h : i < items.length) (h2 : i < (convert_to_three_columns items).length),
      (convert_to_three_columns items).get ⟨i, h2⟩ =
        { key := (pyDictGet (items.get ⟨i, h⟩) (strN ("key"))).getD
            (JValue.jstr (strN ("unknown_key"))),
          value := (pyDictGet (items.get ⟨i, h⟩) (strN ("value"))).getD
            (JValue.jstr []),
          comments := (pyDictGet (items.get ⟨i, h⟩) (strN ("comments"))).getD
            (JValue.jstr []) } := by
  induction items with
  | nil =>
    refine ⟨rfl, ?_⟩
    intro i h h2
    exact absurd h (by simp)
  | cons item rest ih =>
    constructor
    · show (convert_to_three_columns rest).length + 1 = rest.length + 1
      rw [ih.1]
    · intro i h h2
      cases i with
      | zero => rfl
      | succ j =>
        have hj : j < rest.length := by
          simpa using h
        have hj2 : j < (convert_to_three_columns rest).length := by
          rw [ih.1]
          exact hj
        exact ih.2 j hj hj2

theorem projection_totality_witness :
    (convert_to_three_columns [[(strN ("key"), JValue.jstr (strN ("age")))]]).get
      ⟨0, by decide⟩ =
      { key := (pyDictGet [(strN ("key"), JValue.jstr (strN ("age")))]
          (strN ("key"))).getD (JValue.jstr (strN ("unknown_key"))),
        value := (pyDictGet [(strN ("key"), JValue.jstr (strN ("age")))]
          (strN ("value"))).getD (JValue.jstr []),
        comments := (pyDictGet [(strN ("key"), JValue.jstr (strN ("age")))]
          (strN ("comments"))).getD (JValue.jstr []) } :=
  (projection_totality [[(strN ("key"), JValue.jstr (strN ("age")))]]).2 0
    (by decide) (by decide)
